import Mathlib

/-!
Verification of the reversible PII anonymization engine in
`src/bot/services/anonymization.py`.

Python strings are modelled as `List Char`; Python dicts (which preserve
insertion order) are modelled as association lists with Python's
assignment semantics (update in place if the key exists, else append).
The pure string/dict algorithms (`InstanceCounterAnonymizer.operate`,
`anonymize_pii`, `de_anonymize_pii`) are translated line by line from the
source.  The third-party presidio `AnonymizerEngine.anonymize` call and
the NLP analyzer are external to the repository; the analyzer's detected
spans are an explicit input here, and the engine's substitution loop is
modelled from the spec (see `runSegments` below).

Python-level fidelity notes:
* `str.lower` is modelled on the ASCII range (all texts in the claims are
  ASCII); `str.strip` strips the usual ASCII whitespace.
* a Python function that can raise on some input is modelled as returning
  `Option`, `none` standing for the raised exception.
-/

namespace PII

/-- A Python string, as its list of characters. -/
abbrev Str := List Char

/-- Convenience conversion for concrete examples. -/
def str (s : String) : Str := s.data

/-- `[A-Z_]` : the character class of the placeholder-pattern's entity-type
part (`anonymization.py` line 304). -/
def isUpperU (c : Char) : Bool := (65 ≤ c.toNat && c.toNat ≤ 90) || c.toNat = 95

/-- `\d` : ASCII digit. -/
def isDigitC (c : Char) : Bool := 48 ≤ c.toNat && c.toNat ≤ 57

/-- Python `str.lower` on one ASCII character. -/
def lowerChar (c : Char) : Char :=
  if 65 ≤ c.toNat && c.toNat ≤ 90 then Char.ofNat (c.toNat + 32) else c

/-- Python `str.lower` (ASCII). -/
def pyLower (s : Str) : Str := s.map lowerChar

/-- Python `str.strip`. -/
def pyStrip (s : Str) : Str :=
  ((s.dropWhile Char.isWhitespace).reverse.dropWhile Char.isWhitespace).reverse

/-- `InstanceCounterAnonymizer.normalize_name` (lines 47-56): lowercase,
strip surrounding whitespace, remove all periods. -/
def normalize_name (s : Str) : Str :=
  (pyStrip (pyLower s)).filter (fun c => c != '.')

/-- `isStartOf p s` : `p` occurs at the very start of `s`. -/
def isStartOf : Str → Str → Bool
  | [], _ => true
  | _ :: _, [] => false
  | a :: p, b :: s => a = b && isStartOf p s

/-- Python's substring test `p in s`. -/
def occursIn (p : Str) : Str → Bool
  | [] => isStartOf p []
  | c :: t => isStartOf p (c :: t) || occursIn p t

/-- Ordered-dict lookup (`d[k]` / `k in d`). -/
def alookup {α : Type} : List (Str × α) → Str → Option α
  | [], _ => none
  | (k, v) :: t, key => if k = key then some v else alookup t key

/-- Ordered-dict assignment `d[k] = v`: update in place, else append. -/
def ainsert {α : Type} : List (Str × α) → Str → α → List (Str × α)
  | [], key, v => [(key, v)]
  | (k, w) :: t, key, v =>
      if k = key then (k, v) :: t else (k, w) :: ainsert t key v

/-- Decimal digit character. -/
def digitChar (d : Nat) : Char := Char.ofNat (48 + d)

/-- Decimal digits of `n`, accumulator form.  Structural recursion on an
explicit fuel argument (any fuel `≥ n` suffices, since `n / 10 < n`), so
that concrete placeholders evaluate by kernel reduction. -/
def natStrAux : Nat → Nat → Str → Str
  | _, 0, acc => acc
  | 0, _ + 1, acc => acc
  | fuel + 1, n + 1, acc =>
      natStrAux fuel ((n + 1) / 10) (digitChar ((n + 1) % 10) :: acc)

/-- Python `str(n)` for a natural number. -/
def natStr (n : Nat) : Str := if n = 0 then [digitChar 0] else natStrAux n n []

/-- `REPLACING_FORMAT = "<{entity_type}_{index}>"` (line 45). -/
def mkPh (ty : Str) (i : Nat) : Str := '<' :: (ty ++ '_' :: natStr i ++ ['>'])

/-- The mutable state threaded through `InstanceCounterAnonymizer.operate`:
`entity_mapping` (entity type ↦ (original text ↦ placeholder)) and
`original_occurrences` (placeholder ↦ ordered list of matched literals). -/
structure AnonState where
  mapping : List (Str × List (Str × Str))
  occ : List (Str × List Str)
deriving Repr, DecidableEq

/-- The PERSON matching loop (lines 74-90): scan the per-type dict in
order; normalized equality, else containment with both normalized lengths
exceeding 2, returns that entry's placeholder. -/
def personScan (norm : Str) : List (Str × Str) → Option Str
  | [] => none
  | (original, placeholder) :: rest =>
      if normalize_name original = norm then some placeholder
      else
        if (occursIn (normalize_name original) norm
              || occursIn norm (normalize_name original))
            && decide (2 < norm.length)
            && decide (2 < (normalize_name original).length) then
          some placeholder
        else personScan norm rest

/-- The non-PERSON matching loop (lines 120-126): case-insensitive exact
match against the per-type dict keys. -/
def lowerScan (norm : Str) : List (Str × Str) → Option Str
  | [] => none
  | (original, placeholder) :: rest =>
      if pyLower original = norm then some placeholder
      else lowerScan norm rest

/-- Lines 77-79 / 123-125: ensure an occurrence-log entry exists for the
placeholder, then append the literal matched text. -/
def occAppend (occ : List (Str × List Str)) (ph text : Str) :
    List (Str × List Str) :=
  let occ1 := if (alookup occ ph).isSome then occ else ainsert occ ph []
  ainsert occ1 ph ((alookup occ1 ph).getD [] ++ [text])

/-- Lines 92-110 / 128-142: no existing identity matched, so create a new
placeholder indexed `len + 1` (1 when the per-type dict is empty), record
it in the per-type dict, and start its occurrence log with `[text]`. -/
def createNew (ty text : Str) (st : AnonState) : Str × AnonState :=
  let forType := (alookup st.mapping ty).getD []
  let newPh := mkPh ty (forType.length + 1)
  (newPh,
   ⟨ainsert st.mapping ty (ainsert forType text newPh),
    ainsert st.occ newPh [text]⟩)

/-- `InstanceCounterAnonymizer.operate` (lines 58-144). -/
def operate (entity_type text : Str) (st : AnonState) : Str × AnonState :=
  if entity_type = str ("PERSON") then
    match personScan (normalize_name text) ((alookup st.mapping entity_type).getD []) with
    | some ph => (ph, ⟨st.mapping, occAppend st.occ ph text⟩)
    | none => createNew entity_type text st
  else
    match lowerScan (pyLower text) ((alookup st.mapping entity_type).getD []) with
    | some ph => (ph, ⟨st.mapping, occAppend st.occ ph text⟩)
    | none => createNew entity_type text st

/-- A detected entity span, as produced by the (external) analyzer:
start offset, end offset, entity type. -/
structure Span where
  start : Nat
  stop : Nat
  typ : Str
deriving Repr, DecidableEq

/-- The substring `text[a:b]`. -/
def slice (s : Str) (a b : Nat) : Str := (s.drop a).take (b - a)

/-- The literal text of a span. -/
def spanText (text : Str) (sp : Span) : Str := slice text sp.start sp.stop

/-- Well-formed span list starting at cursor `c`: sorted left-to-right,
non-overlapping, non-empty, within bounds (spec, section 4.1). -/
def wfSpans (text : Str) : List Span → Nat → Bool
  | [], c => c ≤ text.length
  | sp :: rest, c => c ≤ sp.start && sp.start < sp.stop && wfSpans text rest sp.stop

/-- The inter-span segments of `text` (before span 1, between spans,
after the last span); always one more segment than spans. -/
def segsOf (text : Str) : List Span → Nat → List Str
  | [], c => [text.drop c]
  | sp :: rest, c => slice text c sp.start :: segsOf text rest sp.stop

/-- Fold `operate` over the (entityType, matchedText) pairs of the spans,
in order, collecting the placeholder returned for each span. -/
def opFold : List (Str × Str) → AnonState → List Str × AnonState
  | [], st => ([], st)
  | (ty, tx) :: rest, st =>
      let r1 := operate ty tx st
      let r2 := opFold rest r1.2
      (r1.1 :: r2.1, r2.2)

/-- Interleave segments and replacement strings:
`s0 ++ r0 ++ s1 ++ r1 ++ ... ++ sn`. -/
def render : List Str → List Str → Str
  | [], _ => []
  | s :: _, [] => s
  | s :: ss, p :: ps => s ++ p ++ render ss ps

/-- The value `anonymize_pii` returns as `entity_mapping`: the per-type
dicts, plus the reserved `"_original_occurrences"` key (modelled as a
separate optional field; the deanonymizer skips exactly that key when it
walks the per-type dicts, and the dict is Python-falsy iff both parts are
absent). -/
structure EntityMapping where
  types : List (Str × List (Str × Str))
  occ : Option (List (Str × List Str))
deriving Repr, DecidableEq

/-- Python truthiness of the `entity_mapping` dict (line 297). -/
def mapIsEmpty (m : EntityMapping) : Bool := m.types.isEmpty && m.occ.isNone

/-- The ten default entity types (lines 208-213). -/
def defaultEntityTypes : List Str :=
  [str ("PERSON"), str ("EMAIL_ADDRESS"), str ("PHONE_NUMBER"),
   str ("CREDIT_CARD"), str ("US_SSN"), str ("US_PASSPORT"),
   str ("LOCATION"), str ("IP_ADDRESS"), str ("URL"), str ("DOMAIN_NAME")]

/-- The fixed, non-indexed replacement operators of the
`context_aware=False` branch (lines 254-265). -/
def fixedLabelOps : List (Str × Str) :=
  [(str ("PERSON"), str ("<PERSON>")),
   (str ("EMAIL_ADDRESS"), str ("<EMAIL>")),
   (str ("PHONE_NUMBER"), str ("<PHONE>")),
   (str ("CREDIT_CARD"), str ("<CREDIT_CARD>")),
   (str ("US_SSN"), str ("<SSN>")),
   (str ("US_PASSPORT"), str ("<PASSPORT>")),
   (str ("LOCATION"), str ("<LOCATION>")),
   (str ("IP_ADDRESS"), str ("<IP>")),
   (str ("URL"), str ("<URL>")),
   (str ("DOMAIN_NAME"), str ("<DOMAIN>"))]

/-- The fixed literal replacing a span of type `ty` in context-free mode;
for a type outside the operators dict presidio's default replacement
`<TYPE>` applies. -/
def fixedLabel (ty : Str) : Str :=
  (alookup fixedLabelOps ty).getD ('<' :: (ty ++ ['>']))

/-- Modelled from the spec: presidio's `AnonymizerEngine.anonymize`
(an external library call, lines 239-248 / 268-272, not part of this
repository) substitutes each detected span's text with the string the
configured operator returns for it, processing spans deterministically
left to right by start offset with no double substitution of overlapping
text (spec section 4.1).  With non-overlapping sorted spans this is
exactly: interleave the untouched segments with the operator outputs. -/
def runSegments (text : Str) (spans : List Span) (reps : List Str) : Str :=
  render (segsOf text spans 0) reps

/-- `anonymize_pii` (lines 191-283).  The analyzer's detected spans are an
input (the analyzer is an external black box).  Returns the anonymized
text and the `entity_mapping`; in context-aware mode the mapping carries
the per-type dicts plus the occurrence log under the reserved key
(line 251), otherwise it is the empty dict (line 273). -/
def anonymize_pii (text : Str) (spans : List Span) (context_aware : Bool) :
    Str × EntityMapping :=
  if context_aware then
    let r := opFold (spans.map (fun sp => (sp.typ, spanText text sp))) ⟨[], []⟩
    (runSegments text spans r.1, ⟨r.2.mapping, some r.2.occ⟩)
  else
    (runSegments text spans (spans.map (fun sp => fixedLabel sp.typ)), ⟨[], none⟩)

/-- The argument record of the `analyzer.analyze` call (lines 220-225):
language `"en"`, the requested entity types (the ten defaults when the
caller passes `None`), and the score threshold, which is the literal
`0.5` in the source — `anonymize_pii`'s parameters are exactly
`(text, entity_types, context_aware)` (line 191), so no caller-supplied
threshold exists. -/
structure AnalyzeCall where
  text : Str
  language : Str
  entities : List Str
  score_threshold : ℚ
deriving DecidableEq

/-- The analyzer invocation `anonymize_pii` performs, as a function of
`anonymize_pii`'s own parameters. -/
def analyzeCallOf (text : Str) (entity_types : Option (List Str))
    (context_aware : Bool) : AnalyzeCall :=
  { text := text
    language := str ("en")
    entities := entity_types.getD defaultEntityTypes
    score_threshold := 1 / 2 }

/-- One attempt of the regex `<([A-Z_]+)_(\d+)>` (line 304) to match at
the head of `s`; on success returns the matched token and the rest.
Backtracking analysis of the pattern: the greedy `[A-Z_]+` run must end
exactly at an `_` whose successors are one or more digits and then `>`
(everything after the `_` consumed by `[A-Z_]+`'s backtracked tail would
have to be digits, which `[A-Z_]` characters are not). -/
def matchAt (s : Str) : Option (Str × Str) :=
  match s with
  | [] => none
  | c :: t =>
      if c = '<' then
        let run := t.takeWhile isUpperU
        let t1 := t.dropWhile isUpperU
        if 2 ≤ run.length ∧ run.getLast? = some '_' then
          let ds := t1.takeWhile isDigitC
          let t2 := t1.dropWhile isDigitC
          if ds = [] then none
          else
            match t2 with
            | '>' :: t3 => some ('<' :: (run ++ ds ++ ['>']), t3)
            | _ => none
        else none
      else none

theorem matchAt_rest_length {s m r : Str} (h : matchAt s = some (m, r)) :
    r.length < s.length := by
  match s with
  | [] => simp [matchAt] at h
  | c :: t =>
    simp only [matchAt] at h
    split at h
    · split at h
      · split at h
        · exact absurd h (by simp)
        · split at h
          · rename_i t3 heq
            simp only [Option.some.injEq, Prod.mk.injEq] at h
            have h1 : (t.dropWhile isUpperU).length ≤ t.length :=
              (List.dropWhile_sublist isUpperU).length_le
            have h2 : ((t.dropWhile isUpperU).dropWhile isDigitC).length ≤
                (t.dropWhile isUpperU).length :=
              (List.dropWhile_sublist isDigitC).length_le
            rw [heq] at h2
            simp only [List.length_cons] at h2
            obtain ⟨-, hr⟩ := h
            subst hr
            simp only [List.length_cons]
            omega
          · exact absurd h (by simp)
      · exact absurd h (by simp)
    · exact absurd h (by simp)

/-- Fuel-based scanner core: structural recursion on fuel (any fuel
`≥ s.length` suffices, as each step strictly shortens the text), so
concrete scans evaluate by kernel reduction. -/
def findMatchesF : Nat → Str → List Str
  | 0, _ => []
  | fuel + 1, s =>
      match s with
      | [] => []
      | c :: t =>
          match matchAt (c :: t) with
          | some (m, r) => m :: findMatchesF fuel r
          | none => findMatchesF fuel t

/-- `re.finditer` of the placeholder pattern over the whole text
(lines 307-311): scan left to right, collecting non-overlapping matches,
resuming after each match.  (`finditer` yields matches in increasing
position order, so the subsequent sort by position at line 314 is the
identity and the match strings are collected here already in order.) -/
def findMatches (s : Str) : List Str := findMatchesF s.length s

/-- The scanner result does not depend on the fuel, once sufficient. -/
theorem findMatchesF_fuel : ∀ (f1 : Nat) (s : Str) (f2 : Nat),
    s.length ≤ f1 → s.length ≤ f2 → findMatchesF f1 s = findMatchesF f2 s := by
  intro f1
  induction f1 with
  | zero =>
    intro s f2 h1 _
    match s, h1 with
    | [], _ =>
      match f2 with
      | 0 => rfl
      | _ + 1 => rfl
  | succ f ih =>
    intro s f2 h1 h2
    match s with
    | [] =>
      match f2 with
      | 0 => rfl
      | _ + 1 => rfl
    | c :: t =>
      match f2, h2 with
      | g + 1, h2 =>
        rw [findMatchesF, findMatchesF]
        cases hm : matchAt (c :: t) with
        | some pr =>
          obtain ⟨m, r⟩ := pr
          have hr : r.length < (c :: t).length := matchAt_rest_length hm
          simp only [List.length_cons] at h1 h2 hr
          dsimp only
          rw [ih r g (by omega) (by omega)]
        | none =>
          simp only [List.length_cons] at h1 h2
          dsimp only
          rw [ih t g (by omega) (by omega)]

/-- Python `s.replace(old, new, 1)`: replace the leftmost occurrence. -/
def replaceFirst (old nw : Str) : Str → Str
  | [] => if isStartOf old [] then nw else []
  | c :: t =>
      if isStartOf old (c :: t) then nw ++ (c :: t).drop old.length
      else c :: replaceFirst old nw t

/-- The inner loop of the fallback search (lines 329-332): first key of
one per-type dict whose value is the placeholder. -/
def fallbackScanType (ph : Str) : List (Str × Str) → Option Str
  | [] => none
  | (original, p) :: rest =>
      if p = ph then some original else fallbackScanType ph rest

/-- The fallback search over all per-type dicts (lines 325-332); the
`break` leaves only the inner loop, so a later type overwrites an earlier
hit (last type containing the placeholder wins). -/
def fallbackSearch (types : List (Str × List (Str × Str))) (ph : Str) :
    Option (List Str) :=
  types.foldl
    (fun acc tm =>
      match fallbackScanType ph tm.2 with
      | some original => some [original]
      | none => acc)
    none

/-- `placeholder_to_original` for one placeholder (lines 317-332): the
occurrence log when the log dict is non-empty and has the key, else the
fallback search; `none` when the placeholder stays unresolved. -/
def lookupOrig (m : EntityMapping) (ph : Str) : Option (List Str) :=
  let occ := m.occ.getD []
  if occ ≠ [] ∧ (alookup occ ph).isSome then alookup occ ph
  else fallbackSearch m.types ph

/-- Lines 346-350: the logged original at this occurrence index, or the
last logged one when the index runs past the log; `none` models the
`IndexError` that `original_forms[-1]` raises on an empty log. -/
def pick (l : List Str) (i : Nat) : Option Str :=
  if i < l.length then l[i]? else l.getLast?

/-- The replacement loop of `de_anonymize_pii` (lines 334-356): walk the
found placeholders in text order, keep a per-placeholder occurrence
count, substitute the leftmost remaining occurrence. -/
def deanLoop (resolve : Str → Option (List Str)) :
    List Str → List (Str × Nat) → Str → Option Str
  | [], _, res => some res
  | ph :: rest, counts, res =>
      match resolve ph with
      | none => deanLoop resolve rest counts res
      | some forms =>
          let idx := (alookup counts ph).getD 0
          match pick forms idx with
          | none => none
          | some v =>
              deanLoop resolve rest (ainsert counts ph (idx + 1))
                (replaceFirst ph v res)

/-- `de_anonymize_pii` (lines 285-358). -/
def de_anonymize_pii (anonymized_text : Str) (m : EntityMapping) :
    Option Str :=
  if mapIsEmpty m then some anonymized_text
  else deanLoop (lookupOrig m) (findMatches anonymized_text) [] anonymized_text

end PII

namespace PII

/-! ### Character-class facts -/

theorem isUpperU_false_of_isDigitC {c : Char} (h : isDigitC c = true) :
    isUpperU c = false := by
  simp only [isDigitC, Bool.and_eq_true, decide_eq_true_eq] at h
  simp only [isUpperU, Bool.or_eq_false_iff, Bool.and_eq_false_iff,
    decide_eq_false_iff_not, not_le]
  omega

theorem ne_lt_of_isUpperU {c : Char} (h : isUpperU c = true) : c ≠ '<' := by
  intro hc
  subst hc
  simp [isUpperU] at h

theorem ne_lt_of_isDigitC {c : Char} (h : isDigitC c = true) : c ≠ '<' := by
  intro hc
  subst hc
  simp [isDigitC] at h

/-! ### Decimal rendering: digits only, non-empty, injective -/

theorem digitChar_isDigitC {d : Nat} (h : d < 10) :
    isDigitC (digitChar d) = true := by
  interval_cases d <;> decide

theorem digitChar_toNat {d : Nat} (h : d < 10) :
    (digitChar d).toNat = 48 + d := by
  interval_cases d <;> decide

theorem natStrAux_acc : ∀ (fuel n : Nat) (acc : Str),
    natStrAux fuel n acc = natStrAux fuel n [] ++ acc := by
  intro fuel
  induction fuel with
  | zero =>
    intro n acc
    match n with
    | 0 => rfl
    | _ + 1 => rfl
  | succ f ih =>
    intro n acc
    match n with
    | 0 => rfl
    | m + 1 =>
      rw [natStrAux, natStrAux,
        ih ((m + 1) / 10) (digitChar ((m + 1) % 10) :: acc),
        ih ((m + 1) / 10) [digitChar ((m + 1) % 10)]]
      simp

theorem natStrAux_digits : ∀ (fuel n : Nat), n ≤ fuel →
    ∀ c ∈ natStrAux fuel n [], isDigitC c = true := by
  intro fuel
  induction fuel with
  | zero =>
    intro n hn c hc
    match n, hn with
    | 0, _ => cases hc
  | succ f ih =>
    intro n hn c hc
    match n with
    | 0 => cases hc
    | m + 1 =>
      rw [natStrAux, natStrAux_acc] at hc
      rcases List.mem_append.mp hc with h | h
      · refine ih ((m + 1) / 10) ?_ c h
        have := Nat.div_lt_self (Nat.succ_pos m) (show 1 < 10 by omega)
        omega
      · rcases List.mem_singleton.mp h with rfl
        exact digitChar_isDigitC (Nat.mod_lt _ (by omega))

theorem natStr_digits (n : Nat) : ∀ c ∈ natStr n, isDigitC c = true := by
  unfold natStr
  split
  · intro c hc
    rcases List.mem_singleton.mp hc with rfl
    exact digitChar_isDigitC (by omega)
  · exact natStrAux_digits n n (Nat.le_refl n)

theorem natStrAux_ne_nil {fuel n : Nat} (h : 0 < n) (hf : 0 < fuel) :
    natStrAux fuel n [] ≠ [] := by
  match fuel, n, h, hf with
  | f + 1, m + 1, _, _ =>
    rw [natStrAux, natStrAux_acc]
    simp

theorem natStr_ne_nil (n : Nat) : natStr n ≠ [] := by
  unfold natStr
  split
  · simp
  · exact natStrAux_ne_nil (by omega) (by omega)

/-- Reading a digit string back as a number, from accumulator `a`. -/
def parseFrom (a : Nat) (s : Str) : Nat :=
  s.foldl (fun x c => x * 10 + (c.toNat - 48)) a

theorem parseFrom_append (a : Nat) (s t : Str) :
    parseFrom a (s ++ t) = parseFrom (parseFrom a s) t := by
  simp [parseFrom, List.foldl_append]

theorem parseFrom_natStrAux : ∀ (fuel n : Nat), n ≤ fuel →
    ∀ a, parseFrom a (natStrAux fuel n []) =
      a * 10 ^ (natStrAux fuel n []).length + n := by
  intro fuel
  induction fuel with
  | zero =>
    intro n hn a
    match n, hn with
    | 0, _ => simp [natStrAux, parseFrom]
  | succ f ih =>
    intro n hn a
    match n with
    | 0 => simp [natStrAux, parseFrom]
    | m + 1 =>
      have hlt : (m + 1) / 10 ≤ f := by
        have := Nat.div_lt_self (Nat.succ_pos m) (show 1 < 10 by omega)
        omega
      rw [natStrAux, natStrAux_acc, parseFrom_append, ih _ hlt]
      have hd : (digitChar ((m + 1) % 10)).toNat = 48 + (m + 1) % 10 :=
        digitChar_toNat (Nat.mod_lt _ (by omega))
      simp only [parseFrom, List.foldl_cons, List.foldl_nil, hd]
      rw [List.length_append, List.length_singleton, pow_succ]
      have hmod : (m + 1) % 10 + 10 * ((m + 1) / 10) = m + 1 := Nat.mod_add_div _ _
      ring_nf
      omega

theorem parseFrom_natStr (n : Nat) : parseFrom 0 (natStr n) = n := by
  unfold natStr
  split
  · simp_all [parseFrom, digitChar]
  · rw [parseFrom_natStrAux n n (Nat.le_refl n)]
    simp

theorem natStr_inj {a b : Nat} (h : natStr a = natStr b) : a = b := by
  have := parseFrom_natStr a
  rw [h, parseFrom_natStr] at this
  omega

/-! ### takeWhile / dropWhile through appends -/

theorem takeWhile_all {p : Char → Bool} {l : Str} (h : ∀ a ∈ l, p a = true) :
    l.takeWhile p = l := by
  induction l with
  | nil => rfl
  | cons c t ih =>
    rw [List.takeWhile_cons, if_pos (h c (List.mem_cons_self c t))]
    rw [ih fun a ha => h a (List.mem_cons_of_mem c ha)]

theorem dropWhile_all {p : Char → Bool} {l : Str} (h : ∀ a ∈ l, p a = true) :
    l.dropWhile p = [] := by
  induction l with
  | nil => rfl
  | cons c t ih =>
    rw [List.dropWhile_cons, if_pos (h c (List.mem_cons_self c t))]
    exact ih fun a ha => h a (List.mem_cons_of_mem c ha)

theorem takeWhile_append_stop {p : Char → Bool} {l r : Str} {x : Char}
    (hx : p x = false) : (l ++ x :: r).takeWhile p = l.takeWhile p := by
  rw [List.takeWhile_append]
  split
  · rename_i hlen
    have : l.takeWhile p = l := by
      have := List.takeWhile_sublist (l := l) p
      exact (List.Sublist.eq_of_length this hlen)
    rw [this, List.takeWhile_cons, hx]
    simp
  · rfl

theorem dropWhile_append_stop {p : Char → Bool} {l r : Str} {x : Char}
    (hx : p x = false) : (l ++ x :: r).dropWhile p = l.dropWhile p ++ x :: r := by
  rw [List.dropWhile_append]
  split
  · rename_i hemp
    rw [List.isEmpty_iff] at hemp
    rw [hemp, List.dropWhile_cons, hx]
    simp
  · rfl

end PII

namespace PII

/-! ### Well-formed placeholder tokens and the match predicate -/

/-- Structural description of a complete placeholder-pattern token
`<RUN+DIGITS>` with `RUN` ending in `_` (i.e. exactly the strings the
regex of line 304 matches as a whole). -/
def wfPh (p : Str) : Prop :=
  ∃ run ds, p = '<' :: (run ++ ds ++ ['>']) ∧
    (∀ c ∈ run, isUpperU c = true) ∧ 2 ≤ run.length ∧
    run.getLast? = some '_' ∧ ds ≠ [] ∧ (∀ c ∈ ds, isDigitC c = true)

/-- A usable entity-type string: non-empty, only `[A-Z_]` characters
(every one of the ten supported types qualifies). -/
def tyOK (ty : Str) : Bool := !ty.isEmpty && ty.all isUpperU

theorem tyOK_of_default {ty : Str} (h : ty ∈ defaultEntityTypes) :
    tyOK ty = true := by
  fin_cases h <;> decide

theorem wfPh_mkPh {ty : Str} (h : tyOK ty = true) (i : Nat) :
    wfPh (mkPh ty i) := by
  refine ⟨ty ++ ['_'], natStr i, ?_, ?_, ?_, ?_, natStr_ne_nil i, natStr_digits i⟩
  · simp [mkPh]
  · intro c hc
    rcases List.mem_append.mp hc with h1 | h1
    · simp only [tyOK, Bool.and_eq_true, List.all_eq_true] at h
      exact h.2 c h1
    · rcases List.mem_singleton.mp h1 with rfl
      decide
  · simp only [tyOK, Bool.and_eq_true, Bool.not_eq_true', List.isEmpty_eq_false_iff_exists_mem] at h
    simp only [List.length_append, List.length_singleton]
    rcases h.1 with ⟨a, ha⟩
    have := List.length_pos_of_mem ha
    omega
  · exact List.getLast?_concat ty

theorem wfPh_head {p : Str} (h : wfPh p) : ∃ t, p = '<' :: t := by
  rcases h with ⟨run, ds, rfl, -⟩
  exact ⟨_, rfl⟩

theorem wfPh_tail_ne_lt {p : Str} (h : wfPh p) :
    ∀ c ∈ p.tail, c ≠ '<' := by
  rcases h with ⟨run, ds, rfl, hrun, -, -, -, hds⟩
  intro c hc
  simp only [List.tail_cons] at hc
  rcases List.mem_append.mp hc with h1 | h1
  · rcases List.mem_append.mp h1 with h2 | h2
    · exact ne_lt_of_isUpperU (hrun c h2)
    · exact ne_lt_of_isDigitC (hds c h2)
  · rcases List.mem_singleton.mp h1 with rfl
    decide

/-- A whole well-formed placeholder at the head of the text matches,
consuming exactly itself. -/
theorem matchAt_wfPh {p : Str} (h : wfPh p) (q : Str) :
    matchAt (p ++ q) = some (p, q) := by
  rcases h with ⟨run, ds, rfl, hrun, hlen, hlast, hne, hds⟩
  rcases (List.exists_cons_of_ne_nil hne) with ⟨d, ds', rfl⟩
  have hdu : isUpperU d = false :=
    isUpperU_false_of_isDigitC (hds d (List.mem_cons_self d ds'))
  have hshape : ('<' :: (run ++ (d :: ds') ++ ['>'])) ++ q =
      '<' :: (run ++ (d :: (ds' ++ '>' :: q))) := by simp
  rw [hshape]
  simp only [matchAt, if_pos rfl]
  rw [takeWhile_append_stop hdu, takeWhile_all hrun]
  rw [dropWhile_append_stop hdu, dropWhile_all hrun]
  simp only [List.nil_append]
  rw [if_pos (show 2 ≤ run.length ∧ run.getLast? = some '_' from ⟨hlen, hlast⟩)]
  have hgt : isDigitC '>' = false := by decide
  have hshape2 : (d :: (ds' ++ '>' :: q)) = (d :: ds') ++ '>' :: q := by simp
  rw [hshape2, takeWhile_append_stop hgt, dropWhile_append_stop hgt]
  rw [takeWhile_all hds, dropWhile_all hds]
  simp

/-- Any successful match is a well-formed placeholder consuming a front
segment of the text. -/
theorem matchAt_sound {s m r : Str} (h : matchAt s = some (m, r)) :
    wfPh m ∧ s = m ++ r := by
  match s with
  | [] => simp [matchAt] at h
  | c :: t =>
    simp only [matchAt] at h
    split at h
    · rename_i hc
      split at h
      · rename_i hcond
        split at h
        · exact absurd h (by simp)
        · rename_i hds
          split at h
          · rename_i t3 heq
            simp only [Option.some.injEq, Prod.mk.injEq] at h
            obtain ⟨hm, hr⟩ := h
            subst hc hm hr
            have h1 : t.takeWhile isUpperU ++ t.dropWhile isUpperU = t :=
              List.takeWhile_append_dropWhile isUpperU t
            have h2 : (t.dropWhile isUpperU).takeWhile isDigitC ++
                (t.dropWhile isUpperU).dropWhile isDigitC = t.dropWhile isUpperU :=
              List.takeWhile_append_dropWhile isDigitC _
            rw [heq] at h2
            have ht : t = t.takeWhile isUpperU ++
                ((t.dropWhile isUpperU).takeWhile isDigitC ++ '>' :: t3) := by
              rw [h2, h1]
            constructor
            · refine ⟨t.takeWhile isUpperU, (t.dropWhile isUpperU).takeWhile isDigitC,
                rfl, ?_, hcond.1, hcond.2, hds, ?_⟩
              · intro a ha
                exact List.mem_takeWhile_imp ha
              · intro a ha
                exact List.mem_takeWhile_imp ha
            · conv_lhs => rw [ht]
              simp
          · exact absurd h (by simp)
      · exact absurd h (by simp)
    · exact absurd h (by simp)

theorem matchAt_none_head {c : Char} (hc : c ≠ '<') (t : Str) :
    matchAt (c :: t) = none := by
  simp [matchAt, hc]

/-- If the pattern matches at the head of `s ++ '<' :: w` for non-empty
`s`, it already matches at the head of `s` alone: a match cannot reach
the appended `<` (no inner character of a match is `<`), so it lies
entirely inside `s`. -/
theorem matchAt_isSome_of_append {s w m r : Str}
    (hws : matchAt (s ++ '<' :: w) = some (m, r)) (hs : s ≠ []) :
    (matchAt s).isSome = true := by
  obtain ⟨hwf, heq⟩ := matchAt_sound hws
  by_cases hlen : m.length ≤ s.length
  · have htake : (s ++ '<' :: w).take m.length = s.take m.length := by
      rw [List.take_append_eq_append_take]
      have : m.length - s.length = 0 := by omega
      rw [this]
      simp
    rw [heq, List.take_left] at htake
    have hsplit : s = m ++ s.drop m.length := by
      conv_lhs => rw [← List.take_append_drop m.length s, ← htake]
    rw [hsplit, matchAt_wfPh hwf]
    rfl
  · exfalso
    have hk : (s ++ '<' :: w)[s.length]? = some '<' := by
      rw [List.getElem?_append_right (Nat.le_refl _)]
      simp
    rw [heq, List.getElem?_append_left (by omega)] at hk
    obtain ⟨mt, rfl⟩ := wfPh_head hwf
    have hsl : 0 < s.length := List.length_pos_of_ne_nil hs
    have hk2 : mt[s.length - 1]? = some '<' := by
      rw [← hk]
      match hn : s.length, hsl with
      | n + 1, _ => simp
    exact wfPh_tail_ne_lt hwf '<' (by simpa using List.getElem?_mem hk2) rfl

/-- A continuation starting with `<` cannot rescue a failed match. -/
theorem matchAt_append_lt {c : Char} {t : Str}
    (h : matchAt (c :: t) = none) (w : Str) :
    matchAt (c :: (t ++ '<' :: w)) = none := by
  cases hmm : matchAt (c :: (t ++ '<' :: w)) with
  | none => rfl
  | some pr =>
    exfalso
    have := matchAt_isSome_of_append (s := c :: t) (w := w)
      (m := pr.1) (r := pr.2) (by simpa using hmm) (by simp)
    rw [h] at this
    simp at this

end PII

namespace PII

/-! ### Texts free of placeholder-pattern matches -/

/-- No position of `s` starts a placeholder-pattern match.  For an
anonymization input this formalizes the round-trip proviso: every
placeholder occurrence in the anonymized text was produced by the
anonymize call itself (a pre-existing pattern match would survive into
the anonymized text, or sit inside a span's logged literal). -/
def clean : Str → Bool
  | [] => true
  | c :: t => (matchAt (c :: t)).isNone && clean t

theorem clean_cons {c : Char} {t : Str} (h : clean (c :: t) = true) :
    matchAt (c :: t) = none ∧ clean t = true := by
  simp only [clean, Bool.and_eq_true, Option.isNone_iff_eq_none] at h
  exact h

/-- A string with no `<` at all is clean. -/
def ltFree (s : Str) : Bool := s.all (fun c => c != '<')

theorem clean_of_ltFree {s : Str} (h : ltFree s = true) : clean s = true := by
  induction s with
  | nil => rfl
  | cons c t ih =>
    simp only [ltFree, List.all_cons, Bool.and_eq_true, bne_iff_ne] at h
    simp only [clean, Bool.and_eq_true, Option.isNone_iff_eq_none]
    exact ⟨matchAt_none_head h.1 t, ih h.2⟩

theorem findMatches_cons_some {c : Char} {t m r : Str}
    (h : matchAt (c :: t) = some (m, r)) :
    findMatches (c :: t) = m :: findMatches r := by
  have hr : r.length ≤ t.length := by
    have := matchAt_rest_length h
    simp only [List.length_cons] at this
    omega
  rw [findMatches, findMatches, List.length_cons, findMatchesF, h]
  dsimp only
  rw [findMatchesF_fuel t.length r r.length hr (Nat.le_refl _)]

theorem findMatches_cons_none {c : Char} {t : Str}
    (h : matchAt (c :: t) = none) :
    findMatches (c :: t) = findMatches t := by
  rw [findMatches, findMatches, List.length_cons, findMatchesF, h]

theorem findMatches_nil : findMatches [] = [] := rfl

theorem findMatches_nil_of_clean {s : Str} (h : clean s = true) :
    findMatches s = [] := by
  induction s with
  | nil => exact findMatches_nil
  | cons c t ih =>
    obtain ⟨h1, h2⟩ := clean_cons h
    rw [findMatches_cons_none h1]
    exact ih h2

/-- Scanning skips over a clean segment when what follows starts with
`<`. -/
theorem findMatches_skip {d : Str} (hd : clean d = true) (w : Str) :
    findMatches (d ++ '<' :: w) = findMatches ('<' :: w) := by
  induction d with
  | nil => rfl
  | cons c t ih =>
    obtain ⟨h1, h2⟩ := clean_cons hd
    rw [List.cons_append, findMatches_cons_none (matchAt_append_lt h1 w)]
    exact ih h2

/-- `findMatches` on interleaved clean segments and well-formed
placeholders returns exactly the placeholders, in order. -/
theorem findMatches_render : ∀ phs segs, segs.length = phs.length + 1 →
    (∀ s ∈ segs, clean s = true) → (∀ p ∈ phs, wfPh p) →
    findMatches (render segs phs) = phs := by
  intro phs
  induction phs with
  | nil =>
    intro segs hlen hsegs _
    match segs with
    | [s] =>
      exact findMatches_nil_of_clean (hsegs s (List.mem_singleton_self s))
  | cons p ps ih =>
    intro segs hlen hsegs hphs
    match segs with
    | s :: ss =>
      have hwf : wfPh p := hphs p (List.mem_cons_self p ps)
      obtain ⟨pt, rfl⟩ := wfPh_head hwf
      have hr : render (s :: ss) (('<' :: pt) :: ps) =
          s ++ '<' :: (pt ++ render ss ps) := by
        show (s ++ ('<' :: pt)) ++ render ss ps = _
        simp
      rw [hr, findMatches_skip (hsegs s (List.mem_cons_self s ss))]
      have hm : matchAt ('<' :: (pt ++ render ss ps)) =
          some ('<' :: pt, render ss ps) := by
        have := matchAt_wfPh hwf (render ss ps)
        simpa using this
      rw [findMatches_cons_some hm]
      congr 1
      exact ih ss (by simpa using hlen)
        (fun x hx => hsegs x (List.mem_cons_of_mem s hx))
        (fun x hx => hphs x (List.mem_cons_of_mem ('<' :: pt) hx))

/-- Clean is inherited by `take`. -/
theorem clean_take {s : Str} (h : clean s = true) (j : Nat) :
    clean (s.take j) = true := by
  induction s generalizing j with
  | nil => simp [List.take_nil]; rfl
  | cons c t ih =>
    obtain ⟨h1, h2⟩ := clean_cons h
    match j with
    | 0 => rfl
    | j + 1 =>
      simp only [List.take_succ_cons, clean, Bool.and_eq_true,
        Option.isNone_iff_eq_none]
      refine ⟨?_, ih h2 j⟩
      cases hmm : matchAt (c :: t.take j) with
      | none => rfl
      | some pr =>
        exfalso
        obtain ⟨hwf, heq⟩ := matchAt_sound hmm
        have : matchAt (c :: t) = some (pr.1, pr.2 ++ t.drop j) := by
          have hct : c :: t = pr.1 ++ (pr.2 ++ t.drop j) := by
            rw [← List.append_assoc, ← heq]
            simp
          rw [hct]
          exact matchAt_wfPh hwf _
        rw [h1] at this
        cases this

/-- Clean is inherited by `drop`. -/
theorem clean_drop {s : Str} (h : clean s = true) (a : Nat) :
    clean (s.drop a) = true := by
  induction s generalizing a with
  | nil => simpa using h
  | cons c t ih =>
    obtain ⟨h1, h2⟩ := clean_cons h
    match a with
    | 0 => exact h
    | a + 1 => exact ih h2 a

/-- Clean is inherited by any slice. -/
theorem clean_slice {s : Str} (h : clean s = true) (a b : Nat) :
    clean (slice s a b) = true :=
  clean_take (clean_drop h a) (b - a)

end PII

namespace PII

/-! ### Positional replacement -/

theorem isStartOf_iff {p : Str} : ∀ {s : Str},
    isStartOf p s = true ↔ ∃ r, s = p ++ r := by
  induction p with
  | nil => intro s; simp [isStartOf]
  | cons a p ih =>
    intro s
    match s with
    | [] => simp [isStartOf]
    | b :: s' =>
      simp only [isStartOf, Bool.and_eq_true, decide_eq_true_eq, ih]
      constructor
      · rintro ⟨rfl, r, rfl⟩
        exact ⟨r, rfl⟩
      · rintro ⟨r, heq⟩
        obtain ⟨rfl, rfl⟩ := List.cons.inj heq
        exact ⟨rfl, r, rfl⟩

theorem clean_head {d : Str} (h : clean d = true) : matchAt d = none := by
  match d with
  | [] => rfl
  | c :: t => exact (clean_cons h).1

/-- A well-formed placeholder cannot start inside a clean string that
precedes its own copy: no occurrence begins strictly before the seam. -/
theorem not_isStartOf_middle {ph d rest : Str} (hph : wfPh ph)
    (hd : clean d = true) (hne : d ≠ []) :
    isStartOf ph (d ++ (ph ++ rest)) = false := by
  by_contra hcon
  rw [Bool.not_eq_false, isStartOf_iff] at hcon
  obtain ⟨r, heq⟩ := hcon
  by_cases hlen : ph.length ≤ d.length
  · have htake : d.take ph.length = ph := by
      have h1 := congrArg (List.take ph.length) heq
      rw [List.take_append_eq_append_take] at h1
      rw [show ph.length - d.length = 0 by omega] at h1
      simpa [List.take_left] using h1
    have hd2 : d = ph ++ d.drop ph.length := by
      conv_lhs => rw [← List.take_append_drop ph.length d, htake]
    have : matchAt d = some (ph, d.drop ph.length) := by
      conv_lhs => rw [hd2]
      exact matchAt_wfPh hph _
    rw [clean_head hd] at this
    cases this
  · have hdrop := congrArg (List.drop d.length) heq
    rw [List.drop_left, List.drop_append_eq_append_drop,
      show d.length - ph.length = 0 by omega, List.drop_zero] at hdrop
    obtain ⟨pt, rfl⟩ := wfPh_head hph
    have hlen2 : d.length < pt.length + 1 := by
      simp only [List.length_cons] at hlen
      omega
    have hg : (('<' :: pt).drop d.length ++ r)[0]? = some '<' := by
      rw [← hdrop]
      simp
    rw [List.getElem?_append_left (show 0 < (('<' :: pt).drop d.length).length by
      rw [List.length_drop]
      simp only [List.length_cons]
      omega)] at hg
    rw [List.getElem?_drop] at hg
    have hdl : 0 < d.length := List.length_pos_of_ne_nil hne
    have hg2 : pt[d.length - 1]? = some '<' := by
      rw [← hg]
      match hn : d.length, hdl with
      | n + 1, _ => simp
    exact wfPh_tail_ne_lt hph '<'
      (by simpa using List.getElem?_mem hg2) rfl

/-- `replaceFirst` at the seam: with a clean string before it, the
leftmost occurrence of the placeholder is the explicit one. -/
theorem replaceFirst_at {ph : Str} (hph : wfPh ph) :
    ∀ d, clean d = true → ∀ v rest,
      replaceFirst ph v (d ++ (ph ++ rest)) = d ++ (v ++ rest) := by
  intro d
  induction d with
  | nil =>
    intro _ v rest
    obtain ⟨pt, hpt⟩ := wfPh_head hph
    simp only [List.nil_append]
    rw [show ph ++ rest = ph.headI :: (ph.tail ++ rest) by rw [hpt]; rfl]
    rw [replaceFirst]
    rw [show (ph.headI :: (ph.tail ++ rest)) = ph ++ rest by rw [hpt]; rfl]
    rw [if_pos (isStartOf_iff.mpr ⟨rest, rfl⟩)]
    rw [List.drop_left]
  | cons c t ih =>
    intro hd v rest
    obtain ⟨h1, h2⟩ := clean_cons hd
    have hstep : (c :: t) ++ (ph ++ rest) = c :: (t ++ (ph ++ rest)) := rfl
    rw [hstep, replaceFirst]
    rw [show (c :: (t ++ (ph ++ rest))) = (c :: t) ++ (ph ++ rest) from rfl]
    rw [if_neg (by
      rw [not_isStartOf_middle hph hd (by simp)]
      simp)]
    rw [ih h2 v rest]
    rfl

end PII

namespace PII

/-! ### Ordered-dict (association list) facts -/

/-- The keys of a dict, in insertion order. -/
def keys {α : Type} (l : List (Str × α)) : List Str := l.map Prod.fst

theorem keys_cons {α : Type} (k : Str) (v : α) (t : List (Str × α)) :
    keys ((k, v) :: t) = k :: keys t := rfl

theorem alookup_ainsert_self {α : Type} (l : List (Str × α)) (k : Str) (v : α) :
    alookup (ainsert l k v) k = some v := by
  induction l with
  | nil => simp [ainsert, alookup]
  | cons kv t ih =>
    obtain ⟨k1, v1⟩ := kv
    by_cases hk : k1 = k
    · simp [ainsert, alookup, hk]
    · rw [ainsert, if_neg hk, alookup, if_neg hk]
      exact ih

theorem alookup_ainsert_ne {α : Type} (l : List (Str × α)) {k k' : Str} (v : α)
    (h : k' ≠ k) : alookup (ainsert l k v) k' = alookup l k' := by
  induction l with
  | nil =>
    rw [ainsert, alookup, alookup, if_neg (fun hh => h hh.symm)]
    rfl
  | cons kv t ih =>
    obtain ⟨k1, v1⟩ := kv
    by_cases hk : k1 = k
    · subst hk
      rw [ainsert, if_pos rfl, alookup, alookup]
      rw [if_neg (fun hh => h hh.symm), if_neg (fun hh => h hh.symm)]
    · rw [ainsert, if_neg hk, alookup, alookup]
      split
      · rfl
      · exact ih

theorem alookup_none_iff_not_mem_keys {α : Type} {l : List (Str × α)} {k : Str} :
    alookup l k = none ↔ k ∉ keys l := by
  induction l with
  | nil => simp [alookup, keys]
  | cons kv t ih =>
    obtain ⟨k1, v1⟩ := kv
    rw [alookup, keys_cons]
    by_cases hk : k1 = k
    · subst hk
      simp
    · rw [if_neg hk, ih]
      simp only [List.mem_cons]
      constructor
      · rintro hni (h1 | h1)
        · exact hk h1.symm
        · exact hni h1
      · intro hni
        exact fun h1 => hni (Or.inr h1)

theorem ainsert_of_absent {α : Type} {l : List (Str × α)} {k : Str}
    (h : alookup l k = none) (v : α) : ainsert l k v = l ++ [(k, v)] := by
  induction l with
  | nil => rfl
  | cons kv t ih =>
    obtain ⟨k1, v1⟩ := kv
    rw [alookup] at h
    split at h
    · cases h
    · rename_i hk
      rw [ainsert, if_neg hk, List.cons_append, ih h]

theorem keys_ainsert_present {α : Type} {l : List (Str × α)} {k : Str}
    (h : (alookup l k).isSome = true) (v : α) :
    keys (ainsert l k v) = keys l := by
  induction l with
  | nil => simp [alookup] at h
  | cons kv t ih =>
    obtain ⟨k1, v1⟩ := kv
    rw [alookup] at h
    by_cases hk : k1 = k
    · rw [ainsert, if_pos hk, keys_cons, keys_cons]
    · rw [if_neg hk] at h
      rw [ainsert, if_neg hk, keys_cons, keys_cons, ih h]

theorem alookup_eq_some_mem {α : Type} {l : List (Str × α)} {k : Str} {v : α}
    (h : alookup l k = some v) : (k, v) ∈ l := by
  induction l with
  | nil => cases h
  | cons kv t ih =>
    obtain ⟨k1, v1⟩ := kv
    rw [alookup] at h
    split at h
    · rename_i hk
      obtain rfl := Option.some.inj h
      subst hk
      exact List.mem_cons_self _ _
    · exact List.mem_cons_of_mem _ (ih h)

theorem mem_alookup_of_nodup {α : Type} {l : List (Str × α)} {kv : Str × α}
    (hn : (keys l).Nodup) (h : kv ∈ l) : alookup l kv.1 = some kv.2 := by
  induction l with
  | nil => cases h
  | cons kv' t ih =>
    obtain ⟨k1, v1⟩ := kv'
    rw [keys_cons, List.nodup_cons] at hn
    rcases List.mem_cons.mp h with rfl | hmem
    · rw [alookup, if_pos rfl]
    · rw [alookup]
      split
      · rename_i hk
        exfalso
        exact hn.1 (hk ▸ (List.mem_map.mpr ⟨kv, hmem, rfl⟩))
      · exact ih hn.2 hmem

theorem mem_ainsert_of_ne {α : Type} {l : List (Str × α)} {kv : Str × α}
    {k : Str} (v : α) (hne : kv.1 ≠ k) (h : kv ∈ l) : kv ∈ ainsert l k v := by
  induction l with
  | nil => cases h
  | cons kv' t ih =>
    obtain ⟨k1, v1⟩ := kv'
    rw [ainsert]
    rcases List.mem_cons.mp h with rfl | hmem
    · rw [if_neg (by simpa using hne)]
      exact List.mem_cons_self _ _
    · split
      · exact List.mem_cons_of_mem _ hmem
      · exact List.mem_cons_of_mem _ (ih hmem)

theorem values_ainsert_absent {α : Type} {l : List (Str × α)} {k : Str}
    (h : alookup l k = none) (v : α) :
    (ainsert l k v).map Prod.snd = l.map Prod.snd ++ [v] := by
  rw [ainsert_of_absent h v]
  simp

theorem keys_ainsert_absent {α : Type} {l : List (Str × α)} {k : Str}
    (h : alookup l k = none) (v : α) : keys (ainsert l k v) = keys l ++ [k] := by
  rw [ainsert_of_absent h v]
  simp [keys]

theorem mem_self_ainsert {α : Type} (l : List (Str × α)) (k : Str) (v : α) :
    (k, v) ∈ ainsert l k v :=
  alookup_eq_some_mem (alookup_ainsert_self l k v)

theorem alookup_isSome_ainsert {α : Type} {l : List (Str × α)} {P k : Str}
    (v : α) (h : (alookup l P).isSome = true) :
    (alookup (ainsert l k v) P).isSome = true := by
  by_cases hP : P = k
  · subst hP
    rw [alookup_ainsert_self]
    rfl
  · rw [alookup_ainsert_ne l v hP]
    exact h

end PII

namespace PII

/-! ### Injectivity of placeholder construction -/

theorem type_sep_inj : ∀ {ty1 ty2 w1 w2 : Str},
    (∀ c ∈ ty1, isUpperU c = true) → (∀ c ∈ ty2, isUpperU c = true) →
    (∀ h, w1.head? = some h → isDigitC h = true) →
    (∀ h, w2.head? = some h → isDigitC h = true) →
    ty1 ++ '_' :: w1 = ty2 ++ '_' :: w2 → ty1 = ty2 ∧ w1 = w2 := by
  intro ty1
  induction ty1 with
  | nil =>
    intro ty2 w1 w2 _ h2 hw1 hw2 heq
    match ty2 with
    | [] =>
      obtain ⟨-, rfl⟩ := List.cons.inj heq
      exact ⟨rfl, rfl⟩
    | e :: t2 =>
      exfalso
      simp only [List.nil_append, List.cons_append] at heq
      obtain ⟨he, hw⟩ := List.cons.inj heq
      match t2, hw with
      | [], hw =>
        simp only [List.nil_append] at hw
        have := hw1 '_' (by rw [hw]; rfl)
        simp [isDigitC] at this
      | f :: t2', hw =>
        simp only [List.cons_append] at hw
        have hf := hw1 f (by rw [hw]; rfl)
        have := isUpperU_false_of_isDigitC hf
        rw [h2 f (by simp)] at this
        cases this
  | cons a t1 ih =>
    intro ty2 w1 w2 h1 h2 hw1 hw2 heq
    match ty2 with
    | [] =>
      exfalso
      simp only [List.nil_append, List.cons_append] at heq
      obtain ⟨he, hw⟩ := List.cons.inj heq
      match t1, hw with
      | [], hw =>
        simp only [List.nil_append] at hw
        have := hw2 '_' (by rw [← hw]; rfl)
        simp [isDigitC] at this
      | f :: t1', hw =>
        simp only [List.cons_append] at hw
        have hf := hw2 f (by rw [← hw]; rfl)
        have := isUpperU_false_of_isDigitC hf
        rw [h1 f (by simp)] at this
        cases this
    | e :: t2 =>
      simp only [List.cons_append] at heq
      obtain ⟨rfl, hw⟩ := List.cons.inj heq
      obtain ⟨rfl, rfl⟩ := ih (fun c hc => h1 c (List.mem_cons_of_mem a hc))
        (fun c hc => h2 c (List.mem_cons_of_mem a hc)) hw1 hw2 hw
      exact ⟨rfl, rfl⟩

theorem mkPh_inj {ty1 ty2 : Str} {i j : Nat} (h1 : tyOK ty1 = true)
    (h2 : tyOK ty2 = true) (heq : mkPh ty1 i = mkPh ty2 j) :
    ty1 = ty2 ∧ i = j := by
  simp only [mkPh, List.cons.injEq, true_and] at heq
  have hass : ∀ (ty : Str) (n : Nat),
      ty ++ '_' :: natStr n ++ ['>'] = ty ++ '_' :: (natStr n ++ ['>']) := by
    intro ty n
    simp
  rw [hass ty1 i, hass ty2 j] at heq
  have hu1 : ∀ c ∈ ty1, isUpperU c = true := by
    simp only [tyOK, Bool.and_eq_true, List.all_eq_true] at h1
    exact h1.2
  have hu2 : ∀ c ∈ ty2, isUpperU c = true := by
    simp only [tyOK, Bool.and_eq_true, List.all_eq_true] at h2
    exact h2.2
  have hd : ∀ (n : Nat) (h : Char),
      (natStr n ++ ['>']).head? = some h → isDigitC h = true := by
    intro n h hh
    rcases List.exists_cons_of_ne_nil (natStr_ne_nil n) with ⟨d, ds, hds⟩
    rw [hds] at hh
    simp only [List.cons_append, List.head?_cons, Option.some.injEq] at hh
    rw [← hh]
    exact natStr_digits n d (by rw [hds]; exact List.mem_cons_self _ _)
  obtain ⟨hty, hw⟩ := type_sep_inj hu1 hu2 (hd i) (hd j) heq
  refine ⟨hty, ?_⟩
  have := (List.append_left_inj ['>']).mp hw
  exact natStr_inj this

/-! ### Scan characterizations -/

theorem lowerScan_some_mem {norm : Str} : ∀ {l : List (Str × Str)} {ph : Str},
    lowerScan norm l = some ph → ∃ k, (k, ph) ∈ l ∧ pyLower k = norm := by
  intro l
  induction l with
  | nil => intro ph h; cases h
  | cons kv t ih =>
    intro ph h
    obtain ⟨k1, v1⟩ := kv
    rw [lowerScan] at h
    split at h
    · rename_i hlow
      obtain rfl := Option.some.inj h
      exact ⟨k1, List.mem_cons_self _ _, hlow⟩
    · obtain ⟨k, hk, hl⟩ := ih h
      exact ⟨k, List.mem_cons_of_mem _ hk, hl⟩

theorem lowerScan_none_all {norm : Str} : ∀ {l : List (Str × Str)},
    lowerScan norm l = none → ∀ kv ∈ l, pyLower kv.1 ≠ norm := by
  intro l
  induction l with
  | nil => intro _ kv hkv; cases hkv
  | cons kv' t ih =>
    intro h kv hkv
    obtain ⟨k1, v1⟩ := kv'
    rw [lowerScan] at h
    split at h
    · cases h
    · rename_i hlow
      rcases List.mem_cons.mp hkv with rfl | hmem
      · exact hlow
      · exact ih h kv hmem

theorem personScan_some_mem {norm : Str} : ∀ {l : List (Str × Str)} {ph : Str},
    personScan norm l = some ph → ∃ k, (k, ph) ∈ l := by
  intro l
  induction l with
  | nil => intro ph h; cases h
  | cons kv t ih =>
    intro ph h
    obtain ⟨k1, v1⟩ := kv
    rw [personScan] at h
    split at h
    · obtain rfl := Option.some.inj h
      exact ⟨k1, List.mem_cons_self _ _⟩
    · split at h
      · obtain rfl := Option.some.inj h
        exact ⟨k1, List.mem_cons_self _ _⟩
      · obtain ⟨k, hk⟩ := ih h
        exact ⟨k, List.mem_cons_of_mem _ hk⟩

theorem personScan_none_all {norm : Str} : ∀ {l : List (Str × Str)},
    personScan norm l = none → ∀ kv ∈ l, normalize_name kv.1 ≠ norm := by
  intro l
  induction l with
  | nil => intro _ kv hkv; cases hkv
  | cons kv' t ih =>
    intro h kv hkv
    obtain ⟨k1, v1⟩ := kv'
    rw [personScan] at h
    split at h
    · cases h
    · rename_i hne
      split at h
      · cases h
      · rcases List.mem_cons.mp hkv with rfl | hmem
        · exact hne
        · exact ih h kv hmem

/-! ### First-occurrence representatives modulo case -/

/-- Case-insensitive membership. -/
def lowerMem (x : Str) (l : List Str) : Bool :=
  l.any (fun y => pyLower y = pyLower x)

/-- First-occurrence representatives of a list of strings, modulo
`pyLower`: the spec's "distinct (case-insensitive) values", in first
appearance order. -/
def distinctLower (l : List Str) : List Str :=
  l.foldl (fun acc x => if lowerMem x acc then acc else acc ++ [x]) []

theorem lowerMem_append (x : Str) (l1 l2 : List Str) :
    lowerMem x (l1 ++ l2) = (lowerMem x l1 || lowerMem x l2) := by
  simp [lowerMem, List.any_append]

theorem lowerMem_congr {x y : Str} (h : pyLower x = pyLower y) (l : List Str) :
    lowerMem x l = lowerMem y l := by
  simp [lowerMem, h]

theorem lowerMem_foldl (x : Str) : ∀ (l : List Str) (acc : List Str),
    lowerMem x (l.foldl (fun acc y => if lowerMem y acc then acc else acc ++ [y]) acc)
      = (lowerMem x acc || lowerMem x l) := by
  intro l
  induction l with
  | nil => intro acc; simp [lowerMem]
  | cons y t ih =>
    intro acc
    simp only [List.foldl_cons]
    by_cases hy : lowerMem y acc = true
    · rw [if_pos hy, ih]
      have hcase : lowerMem x (y :: t) = (decide (pyLower y = pyLower x) || lowerMem x t) := by
        simp [lowerMem, List.any_cons]
      rw [hcase]
      by_cases hxy : pyLower y = pyLower x
      · have : lowerMem x acc = true := by
          rw [lowerMem_congr hxy.symm acc]
          exact hy
        simp [this, hxy]
      · simp [hxy]
    · rw [if_neg hy, ih, lowerMem_append]
      have hsing : lowerMem x [y] = decide (pyLower y = pyLower x) := by
        simp [lowerMem]
      rw [hsing]
      have hcase : lowerMem x (y :: t) = (decide (pyLower y = pyLower x) || lowerMem x t) := by
        simp [lowerMem, List.any_cons]
      rw [hcase]
      cases lowerMem x acc <;> cases lowerMem x t <;> simp

theorem lowerMem_distinctLower (x : Str) (l : List Str) :
    lowerMem x (distinctLower l) = lowerMem x l := by
  rw [distinctLower, lowerMem_foldl]
  simp [lowerMem]

theorem distinctLower_snoc (l : List Str) (x : Str) :
    distinctLower (l ++ [x]) =
      if lowerMem x l then distinctLower l else distinctLower l ++ [x] := by
  rw [distinctLower, List.foldl_append]
  simp only [List.foldl_cons, List.foldl_nil]
  rw [show List.foldl (fun acc y => if lowerMem y acc then acc else acc ++ [y]) [] l
      = distinctLower l from rfl]
  rw [lowerMem_distinctLower]

end PII

namespace PII

/-! ### The `operate` state invariant -/

/-- Processing history: one `(entityType, matchedText, placeholder)`
triple per processed span, in processing order. -/
abbrev Hist := List (Str × Str × Str)

/-- The matched texts resolved to placeholder `P`, in processing order. -/
def phOcc (P : Str) (hist : Hist) : List Str :=
  hist.filterMap (fun h => if h.2.2 = P then some h.2.1 else none)

/-- The matched texts of entity type `T`, in processing order. -/
def textsOfType (T : Str) (hist : Hist) : List Str :=
  hist.filterMap (fun h => if h.1 = T then some h.2.1 else none)

theorem phOcc_append (P : Str) (h1 h2 : Hist) :
    phOcc P (h1 ++ h2) = phOcc P h1 ++ phOcc P h2 := by
  simp [phOcc, List.filterMap_append]

theorem textsOfType_append (T : Str) (h1 h2 : Hist) :
    textsOfType T (h1 ++ h2) = textsOfType T h1 ++ textsOfType T h2 := by
  simp [textsOfType, List.filterMap_append]

/-- Everything that holds of the `entity_mapping` / `original_occurrences`
pair after `operate` has processed the spans recorded in `hist`. -/
structure Inv (hist : Hist) (st : AnonState) : Prop where
  okTypes : ∀ h ∈ hist, tyOK h.1 = true
  mapKeys : (keys st.mapping).Nodup
  innerKeys : ∀ ty l, alookup st.mapping ty = some l → (keys l).Nodup
  occKeys : (keys st.occ).Nodup
  vals : ∀ ty l, alookup st.mapping ty = some l →
    l.map Prod.snd = (List.range l.length).map (fun i => mkPh ty (i + 1))
  typesSeen : ∀ ty, (alookup st.mapping ty).isSome = true →
    ty ∈ hist.map Prod.fst
  valOcc : ∀ ty l kv, alookup st.mapping ty = some l → kv ∈ l →
    (alookup st.occ kv.2).isSome = true
  occVal : ∀ P, (alookup st.occ P).isSome = true →
    ∃ ty l kv, alookup st.mapping ty = some l ∧ kv ∈ l ∧ kv.2 = P
  logs : ∀ P, alookup st.occ P =
    (if phOcc P hist = [] then none else some (phOcc P hist))
  resolved : ∀ h ∈ hist, ∃ l kv, alookup st.mapping h.1 = some l ∧ kv ∈ l ∧
    kv.2 = h.2.2 ∧ (h.1 ≠ str ("PERSON") → pyLower kv.1 = pyLower h.2.1)
  keysNP : ∀ T, T ≠ str ("PERSON") →
    keys ((alookup st.mapping T).getD []) = distinctLower (textsOfType T hist)

theorem Inv.init : Inv [] ⟨[], []⟩ := by
  refine ⟨?_, ?_, ?_, ?_, ?_, ?_, ?_, ?_, ?_, ?_, ?_⟩
  · intro h hh; cases hh
  · exact List.nodup_nil
  · intro ty l h; cases h
  · exact List.nodup_nil
  · intro ty l h; cases h
  · intro ty h; cases h
  · intro ty l kv h; cases h
  · intro P h; cases h
  · intro P; rfl
  · intro h hh; cases hh
  · intro T _; rfl

theorem val_is_mkPh {ty : Str} {l : List (Str × Str)}
    (hv : l.map Prod.snd = (List.range l.length).map (fun i => mkPh ty (i + 1)))
    {kv : Str × Str} (h : kv ∈ l) :
    ∃ i, i < l.length ∧ kv.2 = mkPh ty (i + 1) := by
  have : kv.2 ∈ l.map Prod.snd := List.mem_map.mpr ⟨kv, h, rfl⟩
  rw [hv] at this
  obtain ⟨i, hi, hkv⟩ := List.mem_map.mp this
  exact ⟨i, List.mem_range.mp hi, hkv.symm⟩

theorem occAppend_present {occ : List (Str × List Str)} {ph : Str}
    (h : (alookup occ ph).isSome = true) (tx : Str) :
    occAppend occ ph tx = ainsert occ ph ((alookup occ ph).getD [] ++ [tx]) := by
  rw [occAppend]
  simp only [h, if_true]

/-- The fresh placeholder of `createNew` has no occurrence-log entry yet. -/
theorem fresh_not_in_occ {hist : Hist} {st : AnonState} (hI : Inv hist st)
    {ty : Str} (hty : tyOK ty = true) :
    alookup st.occ (mkPh ty (((alookup st.mapping ty).getD []).length + 1)) = none := by
  set newPh := mkPh ty (((alookup st.mapping ty).getD []).length + 1) with hnew
  cases hlook : alookup st.occ newPh with
  | none => rfl
  | some l0 =>
    exfalso
    obtain ⟨ty', l', kv', hl', hkv', hP⟩ := hI.occVal newPh (by rw [hlook]; rfl)
    obtain ⟨i, hi, hval⟩ := val_is_mkPh (hI.vals ty' l' hl') hkv'
    have hty' : tyOK ty' = true := by
      have := hI.typesSeen ty' (by rw [hl']; rfl)
      obtain ⟨h0, hh0, hfst⟩ := List.mem_map.mp this
      rw [← hfst]
      exact hI.okTypes h0 hh0
    have heq : mkPh ty' (i + 1) = newPh := by rw [← hval, hP]
    rw [hnew] at heq
    obtain ⟨rfl, hij⟩ := mkPh_inj hty' hty heq
    cases hmm : alookup st.mapping ty' with
    | none => rw [hmm] at hl'; cases hl'
    | some l0' =>
      rw [hmm] at hl'
      obtain rfl := Option.some.inj hl'
      rw [hmm] at hij
      simp only [Option.getD_some] at hij
      omega

end PII

namespace PII

theorem phOcc_single_eq (P ty tx : Str) : phOcc P [(ty, tx, P)] = [tx] := by
  simp [phOcc]

theorem phOcc_single_ne {P ph : Str} (h : ph ≠ P) (ty tx : Str) :
    phOcc P [(ty, tx, ph)] = [] := by
  simp [phOcc, h]

theorem textsOfType_single_eq (T tx ph : Str) :
    textsOfType T [(T, tx, ph)] = [tx] := by
  simp [textsOfType]

theorem textsOfType_single_ne {T ty : Str} (h : ty ≠ T) (tx ph : Str) :
    textsOfType T [(ty, tx, ph)] = [] := by
  simp [textsOfType, h]

theorem nodup_snoc {l : List Str} {a : Str} (hn : l.Nodup) (ha : a ∉ l) :
    (l ++ [a]).Nodup := by
  simp only [List.nodup_append, List.nodup_cons, List.not_mem_nil,
    not_false_iff, true_and, List.nodup_nil, List.disjoint_singleton]
  exact ⟨hn, ha⟩

/-- Invariant preservation when `operate` resolves the span to an
existing identity (the scan returned `some ph`). -/
theorem inv_matched {hist : Hist} {st : AnonState} {ty tx ph k : Str}
    {l : List (Str × Str)}
    (hI : Inv hist st) (hty : tyOK ty = true)
    (hl : alookup st.mapping ty = some l) (hk : (k, ph) ∈ l)
    (hlow : ty ≠ str ("PERSON") → pyLower k = pyLower tx) :
    Inv (hist ++ [(ty, tx, ph)]) ⟨st.mapping, occAppend st.occ ph tx⟩ := by
  have hsome : (alookup st.occ ph).isSome = true := hI.valOcc ty l (k, ph) hl hk
  rw [occAppend_present hsome]
  have hlog := hI.logs ph
  have hne : phOcc ph hist ≠ [] := by
    intro hcon
    rw [hcon, if_pos rfl] at hlog
    rw [hlog] at hsome
    cases hsome
  rw [if_neg hne] at hlog
  have holdval : (alookup st.occ ph).getD [] = phOcc ph hist := by
    rw [hlog]
    rfl
  refine ⟨?_, hI.mapKeys, hI.innerKeys, ?_, hI.vals, ?_, ?_, ?_, ?_, ?_, ?_⟩
  · intro h hh
    rcases List.mem_append.mp hh with h1 | h1
    · exact hI.okTypes h h1
    · rcases List.mem_singleton.mp h1 with rfl
      exact hty
  · rw [keys_ainsert_present hsome]
    exact hI.occKeys
  · intro ty0 h0
    rw [List.map_append]
    exact List.mem_append_left _ (hI.typesSeen ty0 h0)
  · intro ty0 l0 kv h0 hkv
    exact alookup_isSome_ainsert _ (hI.valOcc ty0 l0 kv h0 hkv)
  · intro P hP
    by_cases hPph : P = ph
    · subst hPph
      exact ⟨ty, l, (k, P), hl, hk, rfl⟩
    · rw [alookup_ainsert_ne _ _ hPph] at hP
      exact hI.occVal P hP
  · intro P
    by_cases hPph : P = ph
    · subst hPph
      rw [alookup_ainsert_self, holdval, phOcc_append, phOcc_single_eq]
      rw [if_neg (by simp)]
    · rw [alookup_ainsert_ne _ _ hPph, phOcc_append,
        phOcc_single_ne (fun hh => hPph hh.symm), List.append_nil]
      exact hI.logs P
  · intro h hh
    rcases List.mem_append.mp hh with h1 | h1
    · exact hI.resolved h h1
    · rcases List.mem_singleton.mp h1 with rfl
      exact ⟨l, (k, ph), hl, hk, rfl, hlow⟩
  · intro T hT
    rw [textsOfType_append]
    by_cases htyT : ty = T
    · subst htyT
      rw [textsOfType_single_eq, distinctLower_snoc]
      have hkeys := hI.keysNP ty hT
      rw [hl] at hkeys
      simp only [Option.getD_some] at hkeys
      have hmemk : lowerMem tx (textsOfType ty hist) = true := by
        rw [← lowerMem_distinctLower, ← hkeys]
        refine List.any_eq_true.mpr ⟨k, ?_, ?_⟩
        · exact List.mem_map.mpr ⟨(k, ph), hk, rfl⟩
        · simp [hlow hT]
      rw [if_pos hmemk, hl]
      simp only [Option.getD_some]
      exact hkeys
    · rw [textsOfType_single_ne htyT, List.append_nil]
      exact hI.keysNP T hT

end PII

namespace PII

/-- Invariant preservation when `operate` creates a new identity (the
scan returned `none`; in particular the span text is not yet a key of the
per-type dict). -/
theorem inv_created {hist : Hist} {st : AnonState} {ty tx : Str}
    (hI : Inv hist st) (hty : tyOK ty = true)
    (htxabs : alookup ((alookup st.mapping ty).getD []) tx = none)
    (hnomatch : ty ≠ str ("PERSON") →
      ∀ kv ∈ (alookup st.mapping ty).getD [], pyLower kv.1 ≠ pyLower tx) :
    Inv (hist ++ [(ty, tx, (createNew ty tx st).1)]) (createNew ty tx st).2 := by
  set forType := (alookup st.mapping ty).getD [] with hft
  set newPh := mkPh ty (forType.length + 1) with hnew
  have hfresh : alookup st.occ newPh = none := fresh_not_in_occ hI hty
  have hftkeys : (keys forType).Nodup := by
    cases hmm : alookup st.mapping ty with
    | none => rw [hft, hmm]; exact List.nodup_nil
    | some l0 =>
      have := hI.innerKeys ty l0 hmm
      rw [hft, hmm]
      exact this
  have hftvals : forType.map Prod.snd =
      (List.range forType.length).map (fun i => mkPh ty (i + 1)) := by
    cases hmm : alookup st.mapping ty with
    | none => rw [hft, hmm]; rfl
    | some l0 =>
      have := hI.vals ty l0 hmm
      rw [hft, hmm]
      exact this
  have hphOcc_nil : phOcc newPh hist = [] := by
    have := hI.logs newPh
    rw [hfresh] at this
    by_cases hcon : phOcc newPh hist = []
    · exact hcon
    · rw [if_neg hcon] at this
      cases this
  have hc1 : (createNew ty tx st).1 = newPh := rfl
  rw [hc1]
  show Inv _ ⟨ainsert st.mapping ty (ainsert forType tx newPh),
    ainsert st.occ newPh [tx]⟩
  refine ⟨?_, ?_, ?_, ?_, ?_, ?_, ?_, ?_, ?_, ?_, ?_⟩
  · intro h hh
    rcases List.mem_append.mp hh with h1 | h1
    · exact hI.okTypes h h1
    · rcases List.mem_singleton.mp h1 with rfl
      exact hty
  · cases hmm : alookup st.mapping ty with
    | none =>
      rw [keys_ainsert_absent hmm]
      exact nodup_snoc hI.mapKeys (alookup_none_iff_not_mem_keys.mp hmm)
    | some l0 =>
      rw [keys_ainsert_present (by rw [hmm]; rfl)]
      exact hI.mapKeys
  · intro ty0 l0 h0
    by_cases hty0 : ty0 = ty
    · subst hty0
      rw [alookup_ainsert_self] at h0
      obtain rfl := Option.some.inj h0
      rw [keys_ainsert_absent htxabs]
      exact nodup_snoc hftkeys (alookup_none_iff_not_mem_keys.mp htxabs)
    · rw [alookup_ainsert_ne _ _ hty0] at h0
      exact hI.innerKeys ty0 l0 h0
  · rw [keys_ainsert_absent hfresh]
    exact nodup_snoc hI.occKeys (alookup_none_iff_not_mem_keys.mp hfresh)
  · intro ty0 l0 h0
    by_cases hty0 : ty0 = ty
    · subst hty0
      rw [alookup_ainsert_self] at h0
      obtain rfl := Option.some.inj h0
      rw [values_ainsert_absent htxabs, hftvals]
      rw [ainsert_of_absent htxabs]
      simp only [List.length_append, List.length_cons, List.length_nil]
      rw [List.range_succ]
      simp
    · rw [alookup_ainsert_ne _ _ hty0] at h0
      exact hI.vals ty0 l0 h0
  · intro ty0 h0
    rw [List.map_append]
    by_cases hty0 : ty0 = ty
    · subst hty0
      exact List.mem_append_right _ (by simp)
    · rw [alookup_ainsert_ne _ _ hty0] at h0
      exact List.mem_append_left _ (hI.typesSeen ty0 h0)
  · intro ty0 l0 kv h0 hkv
    by_cases hty0 : ty0 = ty
    · rw [hty0, alookup_ainsert_self] at h0
      obtain rfl := Option.some.inj h0
      rw [ainsert_of_absent htxabs] at hkv
      rcases List.mem_append.mp hkv with h1 | h1
      · have : (alookup st.occ kv.2).isSome = true := by
          cases hmm : alookup st.mapping ty with
          | none =>
            exfalso
            rw [hft, hmm] at h1
            cases h1
          | some lf =>
            refine hI.valOcc ty lf kv hmm ?_
            rw [hft, hmm] at h1
            exact h1
        exact alookup_isSome_ainsert _ this
      · rcases List.mem_singleton.mp h1 with rfl
        rw [alookup_ainsert_self]
        rfl
    · rw [alookup_ainsert_ne _ _ hty0] at h0
      exact alookup_isSome_ainsert _ (hI.valOcc ty0 l0 kv h0 hkv)
  · intro P hP
    by_cases hPph : P = newPh
    · subst hPph
      exact ⟨ty, ainsert forType tx newPh, (tx, newPh),
        alookup_ainsert_self _ _ _, mem_self_ainsert _ _ _, rfl⟩
    · rw [alookup_ainsert_ne _ _ hPph] at hP
      obtain ⟨ty', l', kv', hl', hkv', hval⟩ := hI.occVal P hP
      by_cases hty' : ty' = ty
      · subst hty'
        refine ⟨ty', ainsert forType tx newPh, kv', alookup_ainsert_self _ _ _,
          ?_, hval⟩
        have hkv'ne : kv'.1 ≠ tx := by
          intro hcon
          have : alookup forType kv'.1 = some kv'.2 :=
            mem_alookup_of_nodup hftkeys (by rw [hft, hl']; exact hkv')
          rw [hcon, htxabs] at this
          cases this
        refine mem_ainsert_of_ne _ hkv'ne ?_
        rw [hft, hl']
        exact hkv'
      · exact ⟨ty', l', kv', by rw [alookup_ainsert_ne _ _ hty']; exact hl',
          hkv', hval⟩
  · intro P
    by_cases hPph : P = newPh
    · subst hPph
      rw [alookup_ainsert_self, phOcc_append, hphOcc_nil, phOcc_single_eq]
      rw [if_neg (by simp)]
      rfl
    · rw [alookup_ainsert_ne _ _ hPph, phOcc_append,
        phOcc_single_ne (fun hh => hPph hh.symm), List.append_nil]
      exact hI.logs P
  · intro h hh
    rcases List.mem_append.mp hh with h1 | h1
    · obtain ⟨l, kv, hl, hkv, hval, hlow⟩ := hI.resolved h h1
      by_cases hhty : h.1 = ty
      · rw [hhty] at hl
        refine ⟨ainsert forType tx newPh, kv, ?_, ?_, hval, hlow⟩
        · rw [hhty, alookup_ainsert_self]
        · have hkvne : kv.1 ≠ tx := by
            intro hcon
            have : alookup forType kv.1 = some kv.2 :=
              mem_alookup_of_nodup hftkeys (by rw [hft, hl]; exact hkv)
            rw [hcon, htxabs] at this
            cases this
          refine mem_ainsert_of_ne _ hkvne ?_
          rw [hft, hl]
          exact hkv
      · exact ⟨l, kv, by rw [alookup_ainsert_ne _ _ hhty]; exact hl, hkv,
          hval, hlow⟩
    · rcases List.mem_singleton.mp h1 with rfl
      exact ⟨ainsert forType tx newPh, (tx, newPh), alookup_ainsert_self _ _ _,
        mem_self_ainsert _ _ _, rfl, fun _ => rfl⟩
  · intro T hT
    rw [textsOfType_append]
    by_cases htyT : ty = T
    · subst htyT
      rw [textsOfType_single_eq, distinctLower_snoc, alookup_ainsert_self]
      simp only [Option.getD_some]
      rw [keys_ainsert_absent htxabs]
      have hkeys := hI.keysNP ty hT
      rw [← hft] at hkeys
      have hnomem : lowerMem tx (textsOfType ty hist) = false := by
        rw [← lowerMem_distinctLower, ← hkeys]
        by_cases hcon : lowerMem tx (keys forType) = true
        · exfalso
          obtain ⟨y, hy, hyl⟩ := List.any_eq_true.mp hcon
          obtain ⟨kv, hkv, hkvy⟩ := List.mem_map.mp hy
          refine hnomatch hT kv hkv ?_
          rw [hkvy]
          exact of_decide_eq_true hyl
        · exact Bool.not_eq_true _ ▸ (Bool.eq_false_iff.mpr hcon)
      rw [hnomem, if_neg (by simp), hkeys]
    · rw [textsOfType_single_ne htyT, List.append_nil,
        alookup_ainsert_ne _ _ (fun hh => htyT hh.symm)]
      exact hI.keysNP T hT

end PII

namespace PII

/-- One `operate` step preserves the invariant, extending the history by
the processed span. -/
theorem operate_inv {hist : Hist} {st : AnonState} {ty tx : Str}
    (hI : Inv hist st) (hty : tyOK ty = true) :
    Inv (hist ++ [(ty, tx, (operate ty tx st).1)]) (operate ty tx st).2 := by
  rw [operate]
  by_cases hP : ty = str ("PERSON")
  · rw [if_pos hP]
    cases hscan : personScan (normalize_name tx) ((alookup st.mapping ty).getD []) with
    | some ph =>
      dsimp only
      obtain ⟨k, hk⟩ := personScan_some_mem hscan
      cases hmm : alookup st.mapping ty with
      | none =>
        exfalso
        rw [hmm] at hk
        cases hk
      | some l =>
        rw [hmm] at hk
        exact inv_matched hI hty hmm hk (fun hne => absurd hP hne)
    | none =>
      dsimp only
      have htxabs : alookup ((alookup st.mapping ty).getD []) tx = none := by
        cases hmm2 : alookup ((alookup st.mapping ty).getD []) tx with
        | none => rfl
        | some v =>
          exfalso
          exact personScan_none_all hscan (tx, v) (alookup_eq_some_mem hmm2) rfl
      exact inv_created hI hty htxabs (fun hne => absurd hP hne)
  · rw [if_neg hP]
    cases hscan : lowerScan (pyLower tx) ((alookup st.mapping ty).getD []) with
    | some ph =>
      dsimp only
      obtain ⟨k, hk, hlow⟩ := lowerScan_some_mem hscan
      cases hmm : alookup st.mapping ty with
      | none =>
        exfalso
        rw [hmm] at hk
        cases hk
      | some l =>
        rw [hmm] at hk
        exact inv_matched hI hty hmm hk (fun _ => hlow)
    | none =>
      dsimp only
      have htxabs : alookup ((alookup st.mapping ty).getD []) tx = none := by
        cases hmm2 : alookup ((alookup st.mapping ty).getD []) tx with
        | none => rfl
        | some v =>
          exfalso
          exact lowerScan_none_all hscan (tx, v) (alookup_eq_some_mem hmm2) rfl
      exact inv_created hI hty htxabs
        (fun _ kv hkv => lowerScan_none_all hscan kv hkv)

/-- The history produced by a run: one triple per span pair, using the
placeholders the run returned. -/
def histOf (pairs : List (Str × Str)) (phs : List Str) : Hist :=
  pairs.zipWith (fun p ph => (p.1, p.2, ph)) phs

/-- Folding `operate` over all span pairs preserves the invariant. -/
theorem opFold_inv : ∀ (pairs : List (Str × Str)) (st : AnonState) (hist : Hist),
    Inv hist st → (∀ p ∈ pairs, tyOK p.1 = true) →
    Inv (hist ++ histOf pairs (opFold pairs st).1) (opFold pairs st).2 := by
  intro pairs
  induction pairs with
  | nil =>
    intro st hist hI _
    simpa [histOf] using hI
  | cons p rest ih =>
    intro st hist hI hok
    obtain ⟨ty, tx⟩ := p
    have h1 : (opFold ((ty, tx) :: rest) st).1 =
        (operate ty tx st).1 :: (opFold rest (operate ty tx st).2).1 := rfl
    have h2 : (opFold ((ty, tx) :: rest) st).2 =
        (opFold rest (operate ty tx st).2).2 := rfl
    rw [h1, h2]
    have hh : histOf ((ty, tx) :: rest)
        ((operate ty tx st).1 :: (opFold rest (operate ty tx st).2).1) =
        (ty, tx, (operate ty tx st).1) ::
          histOf rest (opFold rest (operate ty tx st).2).1 := rfl
    rw [hh]
    have hassoc : hist ++ ((ty, tx, (operate ty tx st).1) ::
        histOf rest (opFold rest (operate ty tx st).2).1) =
        (hist ++ [(ty, tx, (operate ty tx st).1)]) ++
          histOf rest (opFold rest (operate ty tx st).2).1 := by
      simp
    rw [hassoc]
    exact ih (operate ty tx st).2 (hist ++ [(ty, tx, (operate ty tx st).1)])
      (operate_inv hI (hok (ty, tx) (List.mem_cons_self _ _)))
      (fun q hq => hok q (List.mem_cons_of_mem _ hq))

end PII

namespace PII

/-! ### Segment arithmetic and the restoration loop -/

theorem drop_eq_slice_append {text : Str} {a b : Nat} (hab : a ≤ b) :
    text.drop a = slice text a b ++ text.drop b := by
  rw [slice]
  conv_lhs => rw [← List.take_append_drop (b - a) (text.drop a)]
  congr 1
  rw [List.drop_drop]
  congr 1
  omega

theorem take_append_slice {text : Str} {a b : Nat} (hab : a ≤ b) :
    text.take a ++ slice text a b = text.take b := by
  rw [slice, ← List.take_add, show a + (b - a) = b by omega]

theorem segsOf_length (text : Str) :
    ∀ (spans : List Span) (c : Nat), (segsOf text spans c).length = spans.length + 1 := by
  intro spans
  induction spans with
  | nil => intro c; rfl
  | cons sp rest ih =>
    intro c
    rw [segsOf, List.length_cons, ih]
    rfl

theorem segsOf_clean {text : Str} (hclean : clean text = true) :
    ∀ (spans : List Span) (c : Nat), ∀ s ∈ segsOf text spans c, clean s = true := by
  intro spans
  induction spans with
  | nil =>
    intro c s hs
    rcases List.mem_singleton.mp hs with rfl
    exact clean_drop hclean c
  | cons sp rest ih =>
    intro c s hs
    rcases List.mem_cons.mp hs with rfl | hmem
    · exact clean_slice hclean c sp.start
    · exact ih sp.stop s hmem

theorem opFold_length : ∀ (pairs : List (Str × Str)) (st : AnonState),
    (opFold pairs st).1.length = pairs.length := by
  intro pairs
  induction pairs with
  | nil => intro st; rfl
  | cons p rest ih =>
    intro st
    obtain ⟨ty, tx⟩ := p
    have h1 : (opFold ((ty, tx) :: rest) st).1 =
        (operate ty tx st).1 :: (opFold rest (operate ty tx st).2).1 := rfl
    rw [h1, List.length_cons, ih]
    rfl

theorem mem_histOf_of_mem_phs : ∀ (pairs : List (Str × Str)) (phs : List Str)
    (p : Str), pairs.length = phs.length → p ∈ phs →
    ∃ ty tx, (ty, tx, p) ∈ histOf pairs phs := by
  intro pairs
  induction pairs with
  | nil =>
    intro phs p hlen hp
    match phs with
    | [] => cases hp
  | cons q rest ih =>
    intro phs p hlen hp
    match phs with
    | ph :: ps =>
      obtain ⟨ty, tx⟩ := q
      rcases List.mem_cons.mp hp with rfl | hmem
      · exact ⟨ty, tx, List.mem_cons_self _ _⟩
      · obtain ⟨ty', tx', hmem'⟩ := ih ps p (by simpa using hlen) hmem
        exact ⟨ty', tx', List.mem_cons_of_mem _ hmem'⟩

theorem hist_entry_wf {hist : Hist} {st : AnonState} (hI : Inv hist st) :
    ∀ h ∈ hist, wfPh h.2.2 := by
  intro h hh
  obtain ⟨l, kv, hl, hkv, hval, -⟩ := hI.resolved h hh
  obtain ⟨i, hi, hmk⟩ := val_is_mkPh (hI.vals h.1 l hl) hkv
  rw [← hval, hmk]
  exact wfPh_mkPh (hI.okTypes h hh) (i + 1)

theorem lookupOrig_of_occ {m : EntityMapping} {occl : List (Str × List Str)}
    (hocc : m.occ = some occl) {P : Str} {l : List Str}
    (hl : alookup occl P = some l) : lookupOrig m P = some l := by
  rw [lookupOrig]
  have hgd : m.occ.getD [] = occl := by rw [hocc]; rfl
  rw [hgd]
  have hne : occl ≠ [] := by
    intro hcon
    rw [hcon] at hl
    cases hl
  rw [if_pos ⟨hne, by rw [hl]; rfl⟩]
  exact hl

/-- The core restoration argument: processing the placeholders left to
right, each occurrence is replaced by the span text logged for it, and
the interleaved rendering collapses back to the original text. -/
theorem deanLoop_restore (text : Str) (hclean : clean text = true)
    (resolve : Str → Option (List Str)) :
    ∀ (spans : List Span) (phs : List Str) (c : Nat)
      (counts : List (Str × Nat)),
    spans.length = phs.length →
    wfSpans text spans c = true →
    (∀ p ∈ phs, wfPh p) →
    (∀ P ∈ phs, ∃ l, resolve P = some l ∧
      l.drop ((alookup counts P).getD 0) =
        phOcc P (histOf (spans.map (fun sp => (sp.typ, spanText text sp))) phs)) →
    deanLoop resolve phs counts
      (text.take c ++ render (segsOf text spans c) phs) = some text := by
  intro spans
  induction spans with
  | nil =>
    intro phs c counts hlen hwf _ _
    match phs with
    | [] =>
      rw [deanLoop, segsOf, render, List.take_append_drop]
  | cons sp rest ih =>
    intro phs c counts hlen hwf hph hlog
    match phs with
    | P :: ps =>
      simp only [wfSpans, Bool.and_eq_true, decide_eq_true_eq] at hwf
      obtain ⟨⟨hcs, hss⟩, hwrest⟩ := hwf
      obtain ⟨l, hres, hdrop⟩ := hlog P (List.mem_cons_self _ _)
      have hwfP : wfPh P := hph P (List.mem_cons_self _ _)
      -- the full history's entries for P start with this span's text
      have hhd : phOcc P (histOf ((sp :: rest).map
          (fun sp => (sp.typ, spanText text sp))) (P :: ps)) =
          spanText text sp ::
            phOcc P (histOf (rest.map (fun sp => (sp.typ, spanText text sp))) ps) := by
        simp [histOf, phOcc]
      rw [hhd] at hdrop
      set idx := (alookup counts P).getD 0 with hidx
      have hlt : idx < l.length := by
        have := congrArg List.length hdrop
        simp only [List.length_drop, List.length_cons] at this
        omega
      have hpick : pick l idx = some (spanText text sp) := by
        rw [pick, if_pos hlt]
        have h0 : l[idx]? = (l.drop idx)[0]? := by
          rw [List.getElem?_drop]
          simp
        rw [h0, hdrop]
        simp
      -- unfold one loop step
      rw [deanLoop, hres]
      simp only [← hidx, hpick]
      -- rewrite the text being processed into seam form
      have hseam : text.take c ++ render (segsOf text (sp :: rest) c) (P :: ps) =
          text.take sp.start ++ (P ++ render (segsOf text rest sp.stop) ps) := by
        rw [segsOf]
        rw [show render (slice text c sp.start :: segsOf text rest sp.stop) (P :: ps)
            = (slice text c sp.start ++ P) ++ render (segsOf text rest sp.stop) ps
          from rfl]
        rw [← List.append_assoc, ← List.append_assoc, take_append_slice hcs,
          List.append_assoc]
      rw [hseam, replaceFirst_at hwfP (text.take sp.start)
        (clean_take hclean sp.start)]
      have hjoin : text.take sp.start ++ (spanText text sp ++
          render (segsOf text rest sp.stop) ps) =
          text.take sp.stop ++ render (segsOf text rest sp.stop) ps := by
        rw [← List.append_assoc]
        rw [show spanText text sp = slice text sp.start sp.stop from rfl]
        rw [take_append_slice (by omega)]
      rw [hjoin]
      refine ih ps sp.stop (ainsert counts P (idx + 1)) (by simpa using hlen)
        hwrest (fun p hp => hph p (List.mem_cons_of_mem _ hp)) ?_
      intro P' hP'
      by_cases hPP : P' = P
      · subst hPP
        refine ⟨l, hres, ?_⟩
        rw [alookup_ainsert_self]
        simp only [Option.getD_some]
        have : l.drop (idx + 1) = (l.drop idx).drop 1 := by
          rw [List.drop_drop]
        rw [this, hdrop]
        rfl
      · obtain ⟨l', hres', hdrop'⟩ := hlog P' (List.mem_cons_of_mem _ hP')
        have hne' : ¬(P = P') := fun hh => hPP hh.symm
        refine ⟨l', hres', ?_⟩
        rw [alookup_ainsert_ne _ _ hPP]
        rw [hdrop']
        simp [histOf, phOcc, hne']
  termination_by spans => spans.length

end PII

namespace PII

/-- C1.  Round-trip law: with `context_aware=True`, deanonymizing the
anonymized text with the returned mapping restores the original text
character for character.  Hypotheses: the analyzer's spans are
well-formed (sorted left to right, non-overlapping, non-empty, in
bounds), their types are among the ten supported ones, and `clean text`
formalizes the proviso that every placeholder occurrence in the
anonymized text was produced by this same call (no placeholder-shaped
token pre-exists anywhere in the input). -/
theorem round_trip (text : Str) (spans : List Span)
    (hwf : wfSpans text spans 0 = true)
    (hty : spans.all (fun sp => decide (sp.typ ∈ defaultEntityTypes)) = true)
    (hclean : clean text = true) :
    de_anonymize_pii (anonymize_pii text spans true).1
      (anonymize_pii text spans true).2 = some text := by
  set pairs := spans.map (fun sp => (sp.typ, spanText text sp)) with hpairs
  set r := opFold pairs ⟨[], []⟩ with hr
  have hanon : anonymize_pii text spans true =
      (render (segsOf text spans 0) r.1, ⟨r.2.mapping, some r.2.occ⟩) := rfl
  rw [hanon]
  have hokp : ∀ p ∈ pairs, tyOK p.1 = true := by
    intro p hp
    rw [hpairs] at hp
    obtain ⟨sp, hsp, rfl⟩ := List.mem_map.mp hp
    exact tyOK_of_default (of_decide_eq_true (List.all_eq_true.mp hty sp hsp))
  have hI : Inv (histOf pairs r.1) r.2 := by
    have := opFold_inv pairs ⟨[], []⟩ [] Inv.init hokp
    simpa using this
  have hlenp : pairs.length = r.1.length := by
    rw [hr, opFold_length]
  have hlensp : spans.length = r.1.length := by
    rw [← hlenp, hpairs, List.length_map]
  have hwfphs : ∀ p ∈ r.1, wfPh p := by
    intro p hp
    obtain ⟨ty, tx, hmem⟩ := mem_histOf_of_mem_phs pairs r.1 p hlenp hp
    exact hist_entry_wf hI (ty, tx, p) hmem
  rw [de_anonymize_pii, if_neg (by simp [mapIsEmpty])]
  have hsegsl : (segsOf text spans 0).length = r.1.length + 1 := by
    rw [segsOf_length, hlensp]
  rw [findMatches_render r.1 (segsOf text spans 0) hsegsl
    (segsOf_clean hclean spans 0) hwfphs]
  have hlog : ∀ P ∈ r.1, ∃ l,
      lookupOrig ⟨r.2.mapping, some r.2.occ⟩ P = some l ∧
      l.drop ((alookup ([] : List (Str × Nat)) P).getD 0) =
        phOcc P (histOf (spans.map (fun sp => (sp.typ, spanText text sp))) r.1) := by
    intro P hP
    refine ⟨phOcc P (histOf pairs r.1), ?_, ?_⟩
    · have hlogP := hI.logs P
      have hne : phOcc P (histOf pairs r.1) ≠ [] := by
        obtain ⟨ty, tx, hmem⟩ := mem_histOf_of_mem_phs pairs r.1 P hlenp hP
        intro hcon
        have htx : tx ∈ phOcc P (histOf pairs r.1) :=
          List.mem_filterMap.mpr ⟨(ty, tx, P), hmem, by simp⟩
        rw [hcon] at htx
        cases htx
      rw [if_neg hne] at hlogP
      exact lookupOrig_of_occ rfl hlogP
    · rw [← hpairs]
      simp [alookup]
  have hmain := deanLoop_restore text hclean
    (lookupOrig ⟨r.2.mapping, some r.2.occ⟩) spans r.1 0 [] hlensp hwf hwfphs hlog
  simpa using hmain

end PII

namespace PII

/-! ### Claim theorems -/

/-- Concrete input for witnesses: `"Hi John Doe. Bye John."` with PERSON
spans `[3,11)` ("John Doe") and `[17,21)` ("John"). -/
def demoText : Str := str ("Hi John Doe. Bye John.")

/-- The two PERSON spans of `demoText`. -/
def demoSpans : List Span :=
  [⟨3, 11, str ("PERSON")⟩, ⟨17, 21, str ("PERSON")⟩]

/-- Witness for C1: the round-trip law at a concrete input, all
hypotheses discharged by evaluation. -/
theorem round_trip_witness :
    wfSpans demoText demoSpans 0 = true ∧
    demoSpans.all (fun sp => decide (sp.typ ∈ defaultEntityTypes)) = true ∧
    clean demoText = true ∧
    de_anonymize_pii (anonymize_pii demoText demoSpans true).1
      (anonymize_pii demoText demoSpans true).2 = some demoText :=
  ⟨by decide, by decide, by decide,
    round_trip demoText demoSpans (by decide) (by decide) (by decide)⟩

/-- C6.  With an empty (Python-falsy) mapping, `de_anonymize_pii` is a
no-op: it returns its input unchanged (line 297-298). -/
theorem dean_empty_mapping (s : Str) (m : EntityMapping)
    (hm : mapIsEmpty m = true) : de_anonymize_pii s m = some s := by
  rw [de_anonymize_pii, if_pos hm]

/-- Witness for C6: `de_anonymize_pii "Hello <PERSON_1>" {}` returns the
input unchanged. -/
theorem dean_empty_mapping_witness :
    mapIsEmpty ⟨[], none⟩ = true ∧
    de_anonymize_pii (str ("Hello <PERSON_1>")) ⟨[], none⟩ =
      some (str ("Hello <PERSON_1>")) :=
  ⟨by decide, dean_empty_mapping _ _ (by decide)⟩

/-- C10.  In context-aware mode the returned mapping always carries the
reserved occurrence-log key (line 251 runs unconditionally, even with
zero detected spans), so the mapping is never Python-falsy and a
subsequent `de_anonymize_pii` call never takes the empty-mapping
shortcut (its `if not entity_mapping` guard is false). -/
theorem ctx_mapping_never_empty (text : Str) (spans : List Span) :
    (anonymize_pii text spans true).2.occ.isSome = true ∧
    mapIsEmpty (anonymize_pii text spans true).2 = false := by
  constructor
  · rfl
  · simp [anonymize_pii, mapIsEmpty]

/-- All occurrence-log lists of the mapping are non-empty (true of every
mapping `anonymize_pii` itself produces). -/
def occWellFormed (m : EntityMapping) : Bool :=
  match m.occ with
  | none => true
  | some ol => ol.all (fun e => !e.2.isEmpty)

/-- C4 counterexample: the claim says `de_anonymize_pii` never raises
for any malformed mapping, but a mapping whose occurrence log holds an
empty list for a placeholder present in the text makes line 350
(`original_forms[-1]`) raise `IndexError` — modelled as `none`. -/
theorem dean_raises_on_empty_log :
    de_anonymize_pii (str ("<PERSON_1>"))
      ⟨[], some [(str ("<PERSON_1>"), [])]⟩ = none := by
  decide

theorem pick_isSome {l : List Str} (h : l ≠ []) (i : Nat) :
    (pick l i).isSome = true := by
  rw [pick]
  split
  · rename_i hlt
    rw [List.getElem?_eq_getElem hlt]
    rfl
  · exact List.getLast?_isSome.mpr h

theorem fallbackSearch_shape (ph : Str) :
    ∀ (types : List (Str × List (Str × Str))) (acc : Option (List Str)),
    (acc = none ∨ ∃ x, acc = some [x]) →
    (types.foldl
      (fun acc tm =>
        match fallbackScanType ph tm.2 with
        | some original => some [original]
        | none => acc) acc = none ∨
     ∃ x, types.foldl
      (fun acc tm =>
        match fallbackScanType ph tm.2 with
        | some original => some [original]
        | none => acc) acc = some [x]) := by
  intro types
  induction types with
  | nil => intro acc h; exact h
  | cons tm rest ih =>
    intro acc h
    rw [List.foldl_cons]
    cases hscan : fallbackScanType ph tm.2 with
    | some original => exact ih _ (Or.inr ⟨original, rfl⟩)
    | none => exact ih _ h

theorem fallbackSearch_singleton (types : List (Str × List (Str × Str)))
    (ph : Str) :
    fallbackSearch types ph = none ∨ ∃ x, fallbackSearch types ph = some [x] := by
  rw [fallbackSearch]
  exact fallbackSearch_shape ph types none (Or.inl rfl)

theorem lookupOrig_ne_nil {m : EntityMapping} (hm : occWellFormed m = true)
    {P : Str} {l : List Str} (h : lookupOrig m P = some l) : l ≠ [] := by
  rw [lookupOrig] at h
  split at h
  · rename_i hcond
    obtain ⟨hne, hsome⟩ := hcond
    rw [occWellFormed] at hm
    cases hocc : m.occ with
    | none =>
      exfalso
      rw [hocc] at hne
      exact hne rfl
    | some ol =>
      rw [hocc] at h hm
      simp only [Option.getD_some] at h
      have hmem := alookup_eq_some_mem h
      have := List.all_eq_true.mp hm (P, l) hmem
      simp only [Bool.not_eq_true', List.isEmpty_eq_false_iff_exists_mem] at this
      obtain ⟨a, ha⟩ := this
      intro hcon
      rw [hcon] at ha
      cases ha
  · rcases fallbackSearch_singleton m.types P with hf | ⟨x, hf⟩
    · rw [hf] at h; cases h
    · rw [hf] at h
      obtain rfl := Option.some.inj h
      simp

theorem deanLoop_isSome {resolve : Str → Option (List Str)}
    (hres : ∀ P l, resolve P = some l → l ≠ []) :
    ∀ (phs : List Str) (counts : List (Str × Nat)) (res : Str),
    (deanLoop resolve phs counts res).isSome = true := by
  intro phs
  induction phs with
  | nil => intro counts res; rfl
  | cons P ps ih =>
    intro counts res
    rw [deanLoop]
    cases hr : resolve P with
    | none => exact ih counts res
    | some forms =>
      have hne : forms ≠ [] := hres P forms hr
      have hps := pick_isSome hne ((alookup counts P).getD 0)
      cases hp : pick forms ((alookup counts P).getD 0) with
      | none => rw [hp] at hps; cases hps
      | some v =>
        dsimp only
        rw [hp]
        exact ih _ _

theorem deanLoop_skip {resolve : Str → Option (List Str)} :
    ∀ (phs : List Str) (counts : List (Str × Nat)) (res : Str),
    (∀ P ∈ phs, resolve P = none) →
    deanLoop resolve phs counts res = some res := by
  intro phs
  induction phs with
  | nil => intro counts res _; rfl
  | cons P ps ih =>
    intro counts res hall
    rw [deanLoop, hall P (List.mem_cons_self _ _)]
    exact ih counts res (fun p hp => hall p (List.mem_cons_of_mem _ hp))

/-- C4 amended.  `de_anonymize_pii` never raises provided every
occurrence-log list in the mapping is non-empty (the only raise point is
`original_forms[-1]` on an empty log); unresolved placeholders (no log
entry and no fallback hit) are skipped and stay verbatim, so with no
placeholder resolvable the text comes back untouched. -/
theorem dean_total_graceful (text : Str) (m : EntityMapping)
    (hm : occWellFormed m = true) :
    (de_anonymize_pii text m).isSome = true ∧
    ((∀ P ∈ findMatches text, lookupOrig m P = none) →
      de_anonymize_pii text m = some text) := by
  rw [de_anonymize_pii]
  split
  · exact ⟨rfl, fun _ => rfl⟩
  · constructor
    · exact deanLoop_isSome (fun P l h => lookupOrig_ne_nil hm h) _ _ _
    · intro hall
      exact deanLoop_skip _ _ _ hall

/-- Witness for C4's amended claim: a well-formed mapping whose only
entry does not resolve the placeholder in the text leaves it verbatim. -/
theorem dean_total_graceful_witness :
    occWellFormed ⟨[], some [(str ("<PERSON_2>"), [str ("Bob")])]⟩ = true ∧
    de_anonymize_pii (str ("Hi <PERSON_1>"))
        ⟨[], some [(str ("<PERSON_2>"), [str ("Bob")])]⟩ =
      some (str ("Hi <PERSON_1>")) :=
  ⟨by decide,
    (dean_total_graceful (str ("Hi <PERSON_1>"))
      ⟨[], some [(str ("<PERSON_2>"), [str ("Bob")])]⟩ (by decide)).2 (by decide)⟩

/-- C9 counterexample.  The analyzer threshold `anonymize_pii` passes is
the literal `0.5` (line 224) whatever the caller supplies for the
function's actual parameters `(text, entity_types, context_aware)`
(line 191): there is no `score_threshold` option to set. -/
theorem score_threshold_not_settable :
    (fun (text : Str) (et : Option (List Str)) (ca : Bool) =>
      (analyzeCallOf text et ca).score_threshold) =
    (fun _ _ _ => (1 : ℚ) / 2) := rfl

/-- C9 amended.  The recognized options of `anonymize_pii` are
`entity_types` (defaulting to the ten supported types) and
`context_aware`; the analyzer is always invoked with language `"en"` and
score threshold `0.5`, which is hardcoded, not caller-settable. -/
theorem anonymize_config (text : Str) (et : Option (List Str)) (ca : Bool) :
    (analyzeCallOf text et ca).score_threshold = 1 / 2 ∧
    (analyzeCallOf text none ca).entities = defaultEntityTypes ∧
    (∀ l, (analyzeCallOf text (some l) ca).entities = l) ∧
    (analyzeCallOf text et ca).language = str ("en") :=
  ⟨rfl, rfl, fun l => rfl, rfl⟩

end PII

namespace PII

/-! ### C5: per-occurrence restoration with last-entry fallback -/

theorem matchAt_exact_wf {P : Str} (h : matchAt P = some (P, [])) : wfPh P := by
  have := matchAt_sound h
  exact this.1

theorem pick_getD_mem {l : List Str} (h : l ≠ []) (i : Nat) :
    (pick l i).getD [] ∈ l := by
  rw [pick]
  split
  · rename_i hlt
    rw [List.getElem?_eq_getElem hlt]
    exact List.getElem_mem hlt
  · cases hg : l.getLast? with
    | none =>
      exfalso
      exact h (List.getLast?_eq_none_iff.mp hg)
    | some a =>
      simp only [Option.getD_some]
      have h1 := List.getLast_mem_getLast? h
      rw [hg] at h1
      have h2 : a = l.getLast h := by simpa using h1
      rw [h2]
      exact List.getLast_mem h

theorem ltFree_append {a b : Str} (ha : ltFree a = true) (hb : ltFree b = true) :
    ltFree (a ++ b) = true := by
  simp only [ltFree, List.all_append, Bool.and_eq_true]
  exact ⟨ha, hb⟩

/-- The C5 loop: each occurrence of the one placeholder is replaced with
the log entry at the running occurrence index, the last entry once the
log is exhausted. -/
theorem deanLoop_replicate {resolve : Str → Option (List Str)} {P : Str}
    (hwfP : wfPh P) {l : List Str} (hlne : l ≠ [])
    (hres : resolve P = some l) (hlfree : l.all ltFree = true) :
    ∀ (k : Nat) (segs : List Str) (done : Str) (counts : List (Str × Nat)),
    segs.length = k + 1 → segs.all ltFree = true → ltFree done = true →
    deanLoop resolve (List.replicate k P) counts
      (done ++ render segs (List.replicate k P)) =
    some (done ++ render segs ((List.range k).map
      (fun i => (pick l ((alookup counts P).getD 0 + i)).getD []))) := by
  intro k
  induction k with
  | zero =>
    intro segs done counts hlen _ _
    match segs with
    | [s] => rfl
  | succ k ih =>
    intro segs done counts hlen hsegs hdone
    match segs with
    | s :: ss =>
      have hsfree : ltFree s = true := by
        simp only [List.all_cons, Bool.and_eq_true] at hsegs
        exact hsegs.1
      have hssfree : ss.all ltFree = true := by
        simp only [List.all_cons, Bool.and_eq_true] at hsegs
        exact hsegs.2
      set c0 := (alookup counts P).getD 0 with hc0
      have hpicksome : (pick l c0).isSome = true := pick_isSome hlne c0
      obtain ⟨v, hv⟩ := Option.isSome_iff_exists.mp hpicksome
      have hvmem : v ∈ l := by
        have := pick_getD_mem hlne c0
        rw [hv] at this
        exact this
      have hvfree : ltFree v = true := List.all_eq_true.mp hlfree v hvmem
      rw [List.replicate_succ, deanLoop, hres]
      simp only [← hc0, hv]
      have hshape : done ++ render (s :: ss) (P :: List.replicate k P) =
          (done ++ s) ++ (P ++ render ss (List.replicate k P)) := by
        rw [show render (s :: ss) (P :: List.replicate k P) =
            (s ++ P) ++ render ss (List.replicate k P) from rfl]
        simp
      rw [hshape, replaceFirst_at hwfP (done ++ s)
        (clean_of_ltFree (ltFree_append hdone hsfree)) v
        (render ss (List.replicate k P))]
      have hstep := ih ss ((done ++ s) ++ v) (ainsert counts P (c0 + 1))
        (by simpa using hlen) hssfree
        (ltFree_append (ltFree_append hdone hsfree) hvfree)
      rw [alookup_ainsert_self] at hstep
      simp only [Option.getD_some] at hstep
      rw [show (done ++ s) ++ (v ++ render ss (List.replicate k P)) =
          ((done ++ s) ++ v) ++ render ss (List.replicate k P) by simp]
      rw [hstep]
      have hvals : (List.range (k + 1)).map
          (fun i => (pick l (c0 + i)).getD []) =
          v :: (List.range k).map (fun i => (pick l (c0 + 1 + i)).getD []) := by
        rw [List.range_succ_eq_map, List.map_cons, List.map_map]
        congr 1
        · simp [hv]
        · refine List.map_congr_left ?_
          intro i _
          simp only [Function.comp_apply]
          congr 2
          omega
      rw [hvals]
      rw [show render (s :: ss) (v :: (List.range k).map
          (fun i => (pick l (c0 + 1 + i)).getD [])) =
          (s ++ v) ++ render ss ((List.range k).map
            (fun i => (pick l (c0 + 1 + i)).getD [])) from rfl]
      congr 1
      simp

/-- C5.  The Nth (0-indexed) occurrence of a placeholder is replaced by
the Nth occurrence-log entry, and occurrences beyond the log's length
all receive the last logged value (`pick`).  The text is an arbitrary
interleaving of `<`-free segments around `k` copies of the placeholder. -/
theorem excess_occurrences (segs : List Str) (k : Nat) (P : Str)
    (m : EntityMapping) (l : List Str)
    (hP : matchAt P = some (P, []))
    (hsegs : segs.all ltFree = true)
    (hlen : segs.length = k + 1)
    (hm : mapIsEmpty m = false)
    (hl : lookupOrig m P = some l)
    (hlne : l ≠ [])
    (hlfree : l.all ltFree = true) :
    de_anonymize_pii (render segs (List.replicate k P)) m =
      some (render segs ((List.range k).map (fun i => (pick l i).getD []))) := by
  have hwfP : wfPh P := matchAt_exact_wf hP
  rw [de_anonymize_pii, if_neg (by rw [hm]; exact Bool.false_ne_true)]
  rw [findMatches_render (List.replicate k P) segs (by rw [hlen]; simp)
    (fun s hs => clean_of_ltFree (List.all_eq_true.mp hsegs s hs))
    (fun p hp => by rw [(List.eq_of_mem_replicate hp)]; exact hwfP)]
  have := deanLoop_replicate hwfP hlne hl hlfree k segs [] [] hlen hsegs (by rfl)
  simpa [alookup] using this

/-- Witness for C5: a one-entry log with the placeholder occurring twice
replaces both occurrences with the single logged value. -/
theorem excess_occurrences_witness :
    de_anonymize_pii (str ("Hi <PERSON_1> and <PERSON_1>"))
        ⟨[], some [(str ("<PERSON_1>"), [str ("Bob")])]⟩ =
      some (str ("Hi Bob and Bob")) := by
  have h := excess_occurrences [str ("Hi "), str (" and "), []] 2
    (str ("<PERSON_1>")) ⟨[], some [(str ("<PERSON_1>"), [str ("Bob")])]⟩
    [str ("Bob")] (by decide) (by decide) (by decide) (by decide) (by decide)
    (by decide) (by decide)
  exact h

/-! ### C7: context-free mode -/

/-- C7.  With `context_aware=False` every span of a given entity type is
replaced by the same fixed literal for that type — the replacement
depends only on the type, never on the span's text or an index — all
PERSON spans become the literal `"<PERSON>"`, and the returned mapping
is the empty dict. -/
theorem simple_mode (text : Str) (spans : List Span) :
    (anonymize_pii text spans false).2 = ⟨[], none⟩ ∧
    (anonymize_pii text spans false).1 =
      render (segsOf text spans 0) (spans.map (fun sp => fixedLabel sp.typ)) ∧
    (∀ sp1 ∈ spans, ∀ sp2 ∈ spans, sp1.typ = sp2.typ →
      fixedLabel sp1.typ = fixedLabel sp2.typ) ∧
    fixedLabel (str ("PERSON")) = str ("<PERSON>") := by
  refine ⟨rfl, rfl, ?_, by decide⟩
  intro sp1 _ sp2 _ h
  rw [h]

/-- Witness for C7 at the concrete input: both PERSON spans become the
identical literal and the mapping is empty. -/
theorem simple_mode_witness :
    (anonymize_pii demoText demoSpans false).2 = ⟨[], none⟩ ∧
    (anonymize_pii demoText demoSpans false).1 =
      str ("Hi <PERSON>. Bye <PERSON>.") :=
  ⟨(simple_mode demoText demoSpans).1, by decide⟩

end PII

namespace PII

/-! ### C3: PERSON identity resolution -/

/-- The placeholders a context-aware run assigns, one per span, in
processing order. -/
def phTrace (text : Str) (spans : List Span) : List Str :=
  (opFold (spans.map (fun sp => (sp.typ, spanText text sp))) ⟨[], []⟩).1

/-- The claim's proposed PERSON-identity relation on two mentions, taken
from the claim's words for comparison with the code: normalized forms
equal, or one normalized form a substring of the other with both
normalized lengths exceeding 2. -/
def claimPersonRel (a b : Str) : Bool :=
  (normalize_name a = normalize_name b) ||
  ((occursIn (normalize_name a) (normalize_name b)
      || occursIn (normalize_name b) (normalize_name a))
    && decide (2 < (normalize_name a).length)
    && decide (2 < (normalize_name b).length))

/-- Text and spans exhibiting the C3 counterexample: PERSON mentions
`"John Doe"`, `"John"`, `"Doe"`. -/
def c3Text : Str := str ("John Doe, John, Doe")

/-- The three PERSON spans of `c3Text`. -/
def c3Spans : List Span :=
  [⟨0, 8, str ("PERSON")⟩, ⟨10, 14, str ("PERSON")⟩, ⟨16, 19, str ("PERSON")⟩]

/-- C3 counterexample.  The claim's "if and only if" fails: the code
matches a new mention against the stored first surface form of each
identity, not pairwise against other mentions.  With mentions
`"John Doe"`, `"John"`, `"Doe"`, the mentions `"John"` and `"Doe"` both
resolve to `<PERSON_1>` (each matches the stored key `"John Doe"` by
containment), yet the claim's relation is false for the pair
(`"john"` vs `"doe"`: not equal, neither contains the other). -/
theorem person_iff_counterexample :
    phTrace c3Text c3Spans =
      [str ("<PERSON_1>"), str ("<PERSON_1>"), str ("<PERSON_1>")] ∧
    claimPersonRel (str ("John")) (str ("Doe")) = false := by
  exact ⟨by decide, by decide⟩

/-- Text and spans for the C3 merge example: PERSON mentions
`"John Doe"`, `"John"`, `"JOHN DOE"`, `"Jane Smith"`. -/
def c3aText : Str := str ("John Doe met John and JOHN DOE and Jane Smith")

/-- The four PERSON spans of `c3aText`. -/
def c3aSpans : List Span :=
  [⟨0, 8, str ("PERSON")⟩, ⟨13, 17, str ("PERSON")⟩,
   ⟨22, 30, str ("PERSON")⟩, ⟨35, 45, str ("PERSON")⟩]

/-- C3 amended, proved at the claim's own example: `"John Doe"`,
`"John"` and `"JOHN DOE"` all resolve to the single placeholder
`<PERSON_1>` (each matches the stored key `"John Doe"`, by normalized
equality or containment with both lengths over 2), while the unrelated
`"Jane Smith"` gets `<PERSON_2>`. -/
theorem person_merge :
    phTrace c3aText c3aSpans =
      [str ("<PERSON_1>"), str ("<PERSON_1>"), str ("<PERSON_1>"),
       str ("<PERSON_2>")] ∧
    (anonymize_pii c3aText c3aSpans true).1 =
      str ("<PERSON_1> met <PERSON_1> and <PERSON_1> and <PERSON_2>") := by
  exact ⟨by decide, by decide⟩

end PII

namespace PII

/-! ### C2: left-to-right indexing and occurrence logs -/

/-- C2.  In one context-aware run (spans processed left to right): for
every entity type, the per-type dict's values are exactly the
placeholders indexed `1..N` in first-occurrence (insertion) order; and
the occurrence log maps each placeholder to precisely the literal
matched texts of the spans resolved to it, in processing order
(`phOcc` over the processing history). -/
theorem indexing_and_logs (text : Str) (spans : List Span)
    (hty : spans.all (fun sp => decide (sp.typ ∈ defaultEntityTypes)) = true) :
    (∀ ty l, alookup (anonymize_pii text spans true).2.types ty = some l →
      l.map Prod.snd = (List.range l.length).map (fun i => mkPh ty (i + 1))) ∧
    (∀ ocl, (anonymize_pii text spans true).2.occ = some ocl →
      ∀ P, alookup ocl P =
        (if phOcc P (histOf (spans.map (fun sp => (sp.typ, spanText text sp)))
            (phTrace text spans)) = [] then none
         else some (phOcc P (histOf
            (spans.map (fun sp => (sp.typ, spanText text sp)))
            (phTrace text spans))))) := by
  have hokp : ∀ p ∈ spans.map (fun sp => (sp.typ, spanText text sp)),
      tyOK p.1 = true := by
    intro p hp
    obtain ⟨sp, hsp, rfl⟩ := List.mem_map.mp hp
    exact tyOK_of_default (of_decide_eq_true (List.all_eq_true.mp hty sp hsp))
  have hI := opFold_inv (spans.map (fun sp => (sp.typ, spanText text sp)))
    ⟨[], []⟩ [] Inv.init hokp
  simp only [List.nil_append] at hI
  constructor
  · intro ty l h
    exact hI.vals ty l h
  · intro ocl hocl P
    have hocl2 : ocl = (opFold (spans.map (fun sp => (sp.typ, spanText text sp)))
        ⟨[], []⟩).2.occ := by
      have : (anonymize_pii text spans true).2.occ =
          some (opFold (spans.map (fun sp => (sp.typ, spanText text sp)))
            ⟨[], []⟩).2.occ := rfl
      rw [this] at hocl
      exact (Option.some.inj hocl).symm
    rw [hocl2]
    exact hI.logs P

/-- Witness for C2 at the concrete input: one PERSON identity, value
list `[<PERSON_1>]`, exercised through the theorem. -/
theorem indexing_and_logs_witness :
    demoSpans.all (fun sp => decide (sp.typ ∈ defaultEntityTypes)) = true ∧
    [(str ("John Doe"), str ("<PERSON_1>"))].map Prod.snd =
      (List.range ([(str ("John Doe"), str ("<PERSON_1>"))].length)).map
        (fun i => mkPh (str ("PERSON")) (i + 1)) :=
  ⟨by decide,
    (indexing_and_logs demoText demoSpans (by decide)).1 (str ("PERSON"))
      [(str ("John Doe"), str ("<PERSON_1>"))] (by decide)⟩

end PII

namespace PII

/-! ### C8 support: structure of the fold and of representatives -/

theorem opFold_append : ∀ (l1 l2 : List (Str × Str)) (st : AnonState),
    opFold (l1 ++ l2) st =
      ((opFold l1 st).1 ++ (opFold l2 (opFold l1 st).2).1,
       (opFold l2 (opFold l1 st).2).2) := by
  intro l1
  induction l1 with
  | nil => intro l2 st; rfl
  | cons p t ih =>
    intro l2 st
    obtain ⟨ty, tx⟩ := p
    have h1 : opFold (((ty, tx) :: t) ++ l2) st =
        ((operate ty tx st).1 :: (opFold (t ++ l2) (operate ty tx st).2).1,
         (opFold (t ++ l2) (operate ty tx st).2).2) := rfl
    rw [h1, ih]
    rfl

theorem histOf_mem_of_get {pairs : List (Str × Str)} {phs : List Str}
    (hlen : pairs.length = phs.length) :
    ∀ {i : Nat} (hi : i < pairs.length),
    ((pairs[i]).1, (pairs[i]).2, phs[i]) ∈ histOf pairs phs := by
  induction pairs generalizing phs with
  | nil =>
    intro i hi
    exact absurd hi (by simp)
  | cons p ps ih =>
    intro i hi
    match phs, hlen with
    | q :: qs, hlen =>
      match i with
      | 0 => exact List.mem_cons_self _ _
      | i + 1 =>
        exact List.mem_cons_of_mem _
          (ih (by simpa using hlen) (by simpa using hi))

theorem distinctLower_pairwise_aux :
    ∀ (l : List Str) (acc : List Str),
    acc.Pairwise (fun a b => pyLower a ≠ pyLower b) →
    (l.foldl (fun acc x => if lowerMem x acc then acc else acc ++ [x])
      acc).Pairwise (fun a b => pyLower a ≠ pyLower b) := by
  intro l
  induction l with
  | nil => intro acc h; exact h
  | cons x t ih =>
    intro acc h
    rw [List.foldl_cons]
    by_cases hx : lowerMem x acc = true
    · rw [if_pos hx]
      exact ih acc h
    · rw [if_neg hx]
      refine ih _ ?_
      rw [List.pairwise_append]
      refine ⟨h, List.pairwise_singleton _ _, ?_⟩
      intro a ha b hb
      rcases List.mem_singleton.mp hb with rfl
      intro hcon
      refine hx ?_
      exact List.any_eq_true.mpr ⟨a, ha, by simp [hcon.symm]⟩

theorem distinctLower_pairwise (l : List Str) :
    (distinctLower l).Pairwise (fun a b => pyLower a ≠ pyLower b) :=
  distinctLower_pairwise_aux l [] List.Pairwise.nil

theorem eq_of_pairwise_lower {l : List Str} 
    (hp : l.Pairwise (fun a b => pyLower a ≠ pyLower b)) :
    ∀ {a b : Str}, a ∈ l → b ∈ l → pyLower a = pyLower b → a = b := by
  induction l with
  | nil => intro a b ha; cases ha
  | cons x t ih =>
    intro a b ha hb hl
    rw [List.pairwise_cons] at hp
    rcases List.mem_cons.mp ha with rfl | ha'
    · rcases List.mem_cons.mp hb with rfl | hb'
      · rfl
      · exact absurd hl (hp.1 b hb')
    · rcases List.mem_cons.mp hb with rfl | hb'
      · exact absurd hl.symm (hp.1 a ha')
      · exact ih hp.2 ha' hb' hl

theorem entry_eq_of_snd {l : List (Str × Str)} (hn : (l.map Prod.snd).Nodup) :
    ∀ {kv1 kv2 : Str × Str}, kv1 ∈ l → kv2 ∈ l → kv1.2 = kv2.2 → kv1 = kv2 := by
  induction l with
  | nil => intro kv1 kv2 h; cases h
  | cons p t ih =>
    intro kv1 kv2 h1 h2 heq
    rw [List.map_cons, List.nodup_cons] at hn
    rcases List.mem_cons.mp h1 with rfl | h1'
    · rcases List.mem_cons.mp h2 with rfl | h2'
      · rfl
      · exact absurd (heq ▸ List.mem_map.mpr ⟨kv2, h2', rfl⟩) hn.1
    · rcases List.mem_cons.mp h2 with rfl | h2'
      · exact absurd (heq ▸ List.mem_map.mpr ⟨kv1, h1', rfl⟩) hn.1
      · exact ih hn.2 h1' h2' heq

theorem entry_eq_of_fst {l : List (Str × Str)} (hn : (keys l).Nodup)
    {kv1 kv2 : Str × Str} (h1 : kv1 ∈ l) (h2 : kv2 ∈ l)
    (heq : kv1.1 = kv2.1) : kv1 = kv2 := by
  have g1 := mem_alookup_of_nodup hn h1
  have g2 := mem_alookup_of_nodup hn h2
  rw [heq, g2] at g1
  exact Prod.ext heq (Option.some.inj g1).symm

end PII

namespace PII

/-- C8.  For a non-PERSON type `T`, two spans of type `T` in one
context-aware run resolve to the same placeholder iff their literal
texts are equal case-insensitively; and a span whose text is
case-insensitively new among the earlier `T`-spans receives index
`(number of distinct earlier values of type T) + 1`. -/
theorem nonperson_caseinsensitive (text : Str) (spans : List Span)
    (hty : spans.all (fun sp => decide (sp.typ ∈ defaultEntityTypes)) = true)
    (T : Str) (hT : T ≠ str ("PERSON")) (i j : Nat)
    (hi : i < spans.length) (hj : j < spans.length)
    (hti : (spans[i]).typ = T) (htj : (spans[j]).typ = T) :
    ((phTrace text spans)[i]? = (phTrace text spans)[j]? ↔
      pyLower (spanText text (spans[i])) =
        pyLower (spanText text (spans[j]))) ∧
    (lowerMem (spanText text (spans[j]))
        (textsOfType T (histOf
          ((spans.map (fun sp => (sp.typ, spanText text sp))).take j)
          ((phTrace text spans).take j))) = false →
      (phTrace text spans)[j]? = some (mkPh T
        ((distinctLower (textsOfType T (histOf
          ((spans.map (fun sp => (sp.typ, spanText text sp))).take j)
          ((phTrace text spans).take j)))).length + 1))) := by
  set pairs := spans.map (fun sp => (sp.typ, spanText text sp)) with hpairs
  have hlenpairs : pairs.length = spans.length := by
    rw [hpairs, List.length_map]
  have hphs : phTrace text spans = (opFold pairs ⟨[], []⟩).1 := rfl
  have hlenphs : (phTrace text spans).length = spans.length := by
    rw [hphs, opFold_length, hlenpairs]
  have hokp : ∀ p ∈ pairs, tyOK p.1 = true := by
    intro p hp
    rw [hpairs] at hp
    obtain ⟨sp, hsp, rfl⟩ := List.mem_map.mp hp
    exact tyOK_of_default (of_decide_eq_true (List.all_eq_true.mp hty sp hsp))
  have htyOK : tyOK T = true := by
    rw [← hti]
    exact tyOK_of_default (of_decide_eq_true
      (List.all_eq_true.mp hty _ (List.getElem_mem hi)))
  have hpl : pairs.length = (opFold pairs ⟨[], []⟩).1.length :=
    (opFold_length pairs _).symm
  have hIfull := opFold_inv pairs ⟨[], []⟩ [] Inv.init hokp
  simp only [List.nil_append] at hIfull
  have hentry : ∀ (k : Nat) (hk : k < spans.length), (spans[k]).typ = T →
      (T, spanText text (spans[k]),
        (phTrace text spans)[k]) ∈
        histOf pairs (opFold pairs ⟨[], []⟩).1 := by
    intro k hk hkT
    have hk' : k < pairs.length := by omega
    have hm := histOf_mem_of_get hpl hk'
    simp only [hpairs, List.getElem_map] at hm
    rw [hkT] at hm
    exact hm
  obtain ⟨li, kvi, hli, hkvi, hvi, hlowi⟩ :=
    hIfull.resolved _ (hentry i hi hti)
  obtain ⟨lj, kvj, hlj, hkvj, hvj, hlowj⟩ :=
    hIfull.resolved _ (hentry j hj htj)
  rw [hli] at hlj
  obtain rfl : li = lj := Option.some.inj hlj
  have hlowi' : pyLower kvi.1 = pyLower (spanText text (spans[i])) :=
    hlowi hT
  have hlowj' : pyLower kvj.1 = pyLower (spanText text (spans[j])) :=
    hlowj hT
  have hvi' : kvi.2 = (phTrace text spans)[i] := hvi
  have hvj' : kvj.2 = (phTrace text spans)[j] := hvj
  have hgi : (phTrace text spans)[i]? =
      some ((phTrace text spans)[i]) :=
    List.getElem?_eq_getElem _
  have hgj2 : (phTrace text spans)[j]? =
      some ((phTrace text spans)[j]) :=
    List.getElem?_eq_getElem _
  refine ⟨⟨?_, ?_⟩, ?_⟩
  · intro heq
    rw [hgi, hgj2] at heq
    have hij := Option.some.inj heq
    have hsnd : (li.map Prod.snd).Nodup := by
      rw [hIfull.vals T li hli]
      refine List.Nodup.map ?_ (List.nodup_range _)
      intro a b hab
      have := (mkPh_inj htyOK htyOK hab).2
      omega
    have hkveq : kvi = kvj :=
      entry_eq_of_snd hsnd hkvi hkvj (by rw [hvi', hvj']; exact hij)
    rw [← hlowi', ← hlowj', hkveq]
  · intro hpy
    have hpk : pyLower kvi.1 = pyLower kvj.1 := by
      rw [hlowi', hlowj', hpy]
    have hpw : (keys li).Pairwise (fun a b => pyLower a ≠ pyLower b) := by
      have hkeys := hIfull.keysNP T hT
      rw [hli] at hkeys
      simp only [Option.getD_some] at hkeys
      rw [hkeys]
      exact distinctLower_pairwise _
    have hfst : kvi.1 = kvj.1 :=
      eq_of_pairwise_lower hpw (List.mem_map.mpr ⟨kvi, hkvi, rfl⟩)
        (List.mem_map.mpr ⟨kvj, hkvj, rfl⟩) hpk
    have hkveq : kvi = kvj :=
      entry_eq_of_fst (hIfull.innerKeys T li hli) hkvi hkvj hfst
    have hph : (phTrace text spans)[i] =
        (phTrace text spans)[j] := by
      rw [← hvi', ← hvj', hkveq]
    rw [hgi, hgj2, hph]
  · intro hnomem
    have hj' : j < pairs.length := by omega
    set stj := (opFold (pairs.take j) ⟨[], []⟩).2 with hstj
    set A := (opFold (pairs.take j) ⟨[], []⟩).1 with hA
    have hAlen : A.length = j := by
      rw [hA, opFold_length, List.length_take]
      omega
    have hfold := opFold_append (pairs.take j) (pairs.drop j) ⟨[], []⟩
    rw [List.take_append_drop] at hfold
    have hphsAB : phTrace text spans = A ++ (opFold (pairs.drop j) stj).1 := by
      rw [hphs, hfold]
    have hgj : pairs[j] = (T, spanText text (spans[j])) := by
      simp only [hpairs, List.getElem_map]
      rw [htj]
    have hB : (opFold (pairs.drop j) stj).1 =
        (operate T (spanText text (spans[j])) stj).1 ::
          (opFold (pairs.drop (j + 1))
            (operate T (spanText text (spans[j])) stj).2).1 := by
      rw [List.drop_eq_getElem_cons hj', hgj]
      rfl
    have hget : (phTrace text spans)[j]? =
        some ((operate T (spanText text (spans[j])) stj).1) := by
      rw [hphsAB, hB, List.getElem?_append_right (by omega), hAlen]
      simp
    have htake : (phTrace text spans).take j = A := by
      rw [hphsAB, List.take_left' hAlen]
    rw [htake] at hnomem ⊢
    rw [hget]
    have hIj := opFold_inv (pairs.take j) ⟨[], []⟩ [] Inv.init
      (fun p hp => hokp p (List.take_subset _ _ hp))
    simp only [List.nil_append] at hIj
    have hscan : lowerScan (pyLower (spanText text (spans[j])))
        ((alookup stj.mapping T).getD []) = none := by
      cases hsc : lowerScan (pyLower (spanText text (spans[j])))
          ((alookup stj.mapping T).getD []) with
      | none => rfl
      | some ph =>
        exfalso
        obtain ⟨k, hk, hlow⟩ := lowerScan_some_mem hsc
        have hkeys := hIj.keysNP T hT
        have hkmem : k ∈ keys ((alookup stj.mapping T).getD []) :=
          List.mem_map.mpr ⟨(k, ph), hk, rfl⟩
        rw [hkeys] at hkmem
        have hlm : lowerMem (spanText text (spans[j]))
            (textsOfType T (histOf (pairs.take j) A)) = true := by
          rw [← lowerMem_distinctLower]
          exact List.any_eq_true.mpr ⟨k, hkmem, by simp [hlow]⟩
        rw [hnomem] at hlm
        cases hlm
    have hop : (operate T (spanText text (spans[j])) stj).1 =
        mkPh T (((alookup stj.mapping T).getD []).length + 1) := by
      rw [operate, if_neg hT, hscan]
      rfl
    have hlen2 : ((alookup stj.mapping T).getD []).length =
        (distinctLower (textsOfType T (histOf (pairs.take j) A))).length := by
      have := congrArg List.length (hIj.keysNP T hT)
      simpa [keys] using this
    rw [hop, hlen2]

end PII

namespace PII

def c8Text : Str := str ("a test@x.com b TEST@X.COM c other@y.org")

def c8Spans : List Span :=
  [⟨2, 12, str ("EMAIL_ADDRESS")⟩, ⟨15, 25, str ("EMAIL_ADDRESS")⟩,
   ⟨28, 39, str ("EMAIL_ADDRESS")⟩]

/-- Witness for C8 at a concrete input: `test@x.com` and `TEST@X.COM`
are both EMAIL_ADDRESS spans, and they share a placeholder exactly
because they agree case-insensitively. -/
theorem nonperson_caseinsensitive_witness :
    c8Spans.all (fun sp => decide (sp.typ ∈ defaultEntityTypes)) = true ∧
    ((phTrace c8Text c8Spans)[0]? = (phTrace c8Text c8Spans)[1]? ↔
      pyLower (spanText c8Text (c8Spans.get ⟨0, by decide⟩)) =
        pyLower (spanText c8Text (c8Spans.get ⟨1, by decide⟩))) :=
  ⟨by decide,
    (nonperson_caseinsensitive c8Text c8Spans (by decide)
      (str ("EMAIL_ADDRESS")) (by decide) 0 1 (by decide) (by decide)
      (by decide) (by decide)).1⟩

end PII
